import Mathlib

/-!
# SHA-1 streaming hash (`cripto::SHA1`)

A shallow embedding of `src/lib-hash/src/sha1.cc` and `src/lib-hash/headers/sha1.hh`.

* `uint8_t` is `Fin 256`; `uint32_t`, `uint64_t` and `size_t` values are natural numbers and
  every operation that can wrap carries its `% 2 ^ 32` or `% 2 ^ 64` (an LP64 target:
  `size_t` is 64 bits wide).
* The staging buffer `uint8_t buffer[64]` is a list of exactly 64 bytes.  Every write to it is
  bounds checked: an access outside `[0, 64)` is undefined behaviour in the source and the
  embedded operation returns `none`.
* The constructor leaves `buffer` uninitialised, so the embedded constructor takes the
  buffer's initial contents as an argument.
* Calls to `cripto::log_trace` only emit text and are left out.
* `transform` only reads its block and its local array `w`; `transformChecked` is the same
  function with every such access, and every rotation count, checked.
* The properties are numbered `C1` to `C19`; each is one theorem whose name starts with
  its number.
-/

namespace cripto

/-! ## The program -/

/-- An octet, the `uint8_t` of the source. -/
abbrev Byte := Fin 256

/-- Conversion of an unsigned value to `uint8_t` (truncation to the low eight bits). -/
def toByte (x : Nat) : Byte := ⟨x % 256, Nat.mod_lt x (by decide)⟩

/-- Block size in bytes (512 bits), `sha1.hh` line 18. -/
abbrev SHA1_BLOCK_SIZE : Nat := 64

/-- Digest size in bytes (160 bits), `sha1.hh` line 19. -/
abbrev SHA1_DIGEST_SIZE : Nat := 20

/-- Subtraction of two `size_t` values, wrapping modulo `2 ^ 64`. -/
def subSizeT (a b : Nat) : Nat := (a + 2 ^ 64 - b) % 2 ^ 64

/-- Rotation helper of `sha1.cc` lines 30-35:
`(value << count) | (value >> (32 - count))` on `uint32_t`. -/
def leftRotate (value count : Nat) : Nat :=
  ((value <<< count) % 2 ^ 32) ||| (value >>> (32 - count))

/-- The five state registers `uint32_t state[5]`. -/
structure Registers where
  h0 : Nat
  h1 : Nat
  h2 : Nat
  h3 : Nat
  h4 : Nat
deriving DecidableEq, Repr

/-- Indexing `state[i]`, for `i` in `0..4`. -/
def Registers.get (r : Registers) (i : Nat) : Nat :=
  match i with
  | 0 => r.h0
  | 1 => r.h1
  | 2 => r.h2
  | 3 => r.h3
  | _ => r.h4

/-- The staging area `uint8_t buffer[SHA1_BLOCK_SIZE]`: exactly 64 bytes. -/
structure Buffer where
  bytes : List Byte
  size_eq : bytes.length = 64

/-- Effect of `std::memcpy(buffer + off, src, count)`; `none` when the destination range
leaves the buffer or the source has fewer than `count` bytes. -/
def Buffer.copy (b : Buffer) (off : Nat) (src : List Byte) (count : Nat) : Option Buffer :=
  if h : off + count ≤ 64 ∧ count ≤ src.length then
    some ⟨b.bytes.take off ++ src.take count ++ b.bytes.drop (off + count), by
      have := b.size_eq
      simp only [List.length_append, List.length_take, List.length_drop]
      omega⟩
  else none

/-- Effect of `std::memset(buffer + off, value, count)`; `none` when the destination range
leaves the buffer. -/
def Buffer.fill (b : Buffer) (off : Nat) (value : Byte) (count : Nat) : Option Buffer :=
  if h : off + count ≤ 64 then
    some ⟨b.bytes.take off ++ List.replicate count value ++ b.bytes.drop (off + count), by
      have := b.size_eq
      simp only [List.length_append, List.length_take, List.length_drop,
        List.length_replicate]
      omega⟩
  else none

/-- Effect of the store `buffer[i] = value`; `none` when `i` is not an index of the buffer. -/
def Buffer.store (b : Buffer) (i : Nat) (value : Byte) : Option Buffer :=
  if i < 64 then
    some ⟨b.bytes.set i value, by simp only [List.length_set]; exact b.size_eq⟩
  else none

/-- The data members of `class SHA1` (`sha1.hh` lines 32-62). -/
structure SHA1 where
  state : Registers
  bitCount : Nat
  bufferLength : Nat
  block_number : Nat
  buffer : Buffer

/-- Constructor `SHA1::SHA1()` (`sha1.cc` lines 49-52); the name `SHA1.SHA1` would shadow
the type inside its own namespace.  The member `buffer` is not initialised there:
`uninit` is whatever the storage holds. -/
def SHA1.construct (uninit : Buffer) : SHA1 :=
  { state := ⟨0x67452301, 0xEFCDAB89, 0x98BADCFE, 0x10325476, 0xC3D2E1F0⟩
    bitCount := 0
    bufferLength := 0
    block_number := 0
    buffer := uninit }

/-- Big-endian word `i` of a block, `sha1.cc` lines 111-112. -/
def parseWord (block : List Byte) (i : Nat) : Nat :=
  (((block.getD (i * 4) 0).val <<< 24) ||| ((block.getD (i * 4 + 1) 0).val <<< 16) |||
    ((block.getD (i * 4 + 2) 0).val <<< 8) ||| (block.getD (i * 4 + 3) 0).val) % 2 ^ 32

/-- Body of the first loop of `transform`: `w[i] = ` the big-endian word `i`. -/
def parseStep (block : List Byte) (w : List Nat) (i : Nat) : List Nat :=
  w.set i (parseWord block i)

/-- Body of the expansion loop of `transform`, `sha1.cc` line 118. -/
def expandStep (w : List Nat) (i : Nat) : List Nat :=
  w.set i
    (leftRotate (w.getD (i - 3) 0 ^^^ w.getD (i - 8) 0 ^^^ w.getD (i - 14) 0 ^^^
      w.getD (i - 16) 0) 1)

/-- The array `uint32_t w[80]` after the two schedule loops of `transform`
(`sha1.cc` lines 109-119).  Every entry is written before it is read, so the initial
contents of the array do not matter; they are taken as zero. -/
def schedule (block : List Byte) : List Nat :=
  (List.range' 16 64).foldl expandStep
    ((List.range 16).foldl (parseStep block) (List.replicate 80 0))

/-- Body of the 80-round loop of `transform`, `sha1.cc` lines 138-162, on the working
variables `a, b, c, d, e`.  `~b` on `uint32_t` is `b ^ 0xFFFFFFFF`. -/
def roundStep (w : List Nat) (v : Registers) (i : Nat) : Registers :=
  let a := v.h0
  let b := v.h1
  let c := v.h2
  let d := v.h3
  let e := v.h4
  let fk : Nat × Nat :=
    if i < 20 then ((b &&& c) ||| ((b ^^^ 0xFFFFFFFF) &&& d), 0x5A827999)
    else if i < 40 then (b ^^^ c ^^^ d, 0x6ED9EBA1)
    else if i < 60 then ((b &&& c) ||| (b &&& d) ||| (c &&& d), 0x8F1BBCDC)
    else (b ^^^ c ^^^ d, 0xCA62C1D6)
  let temp := (leftRotate a 5 + fk.1 + e + fk.2 + w.getD i 0) % 2 ^ 32
  ⟨temp, a, leftRotate b 30, c, d⟩

/-- The register update of `transform` (`sha1.cc` lines 102-170): schedule, 80 rounds
from the current registers, then `state[j] += ` the working variables. -/
def compress (regs : Registers) (block : List Byte) : Registers :=
  let w := schedule block
  let v := (List.range 80).foldl (roundStep w) regs
  ⟨(regs.h0 + v.h0) % 2 ^ 32, (regs.h1 + v.h1) % 2 ^ 32, (regs.h2 + v.h2) % 2 ^ 32,
   (regs.h3 + v.h3) % 2 ^ 32, (regs.h4 + v.h4) % 2 ^ 32⟩

/-- Function `SHA1::transform` (`sha1.cc` lines 100-177): `++block_number`, then the
register update on the 64 bytes of `block`. -/
def SHA1.transform (s : SHA1) (block : Buffer) : SHA1 :=
  { s with
    block_number := (s.block_number + 1) % 2 ^ 64
    state := compress s.state block.bytes }

/-- One pass through the body of the `while` loop of `initialization`
(`sha1.cc` lines 73-91) on the remaining input `data`; returns the new state and the
input still to be consumed. -/
def SHA1.initStep (s : SHA1) (data : List Byte) : Option (SHA1 × List Byte) :=
  let toCopy := min data.length (subSizeT SHA1_BLOCK_SIZE s.bufferLength)
  match s.buffer.copy s.bufferLength data toCopy with
  | none => none
  | some buf =>
    let s1 : SHA1 :=
      { s with buffer := buf, bufferLength := (s.bufferLength + toCopy) % 2 ^ 64 }
    let s2 : SHA1 :=
      if s1.bufferLength = SHA1_BLOCK_SIZE then
        let t := s1.transform s1.buffer
        { t with bitCount := (t.bitCount + 512) % 2 ^ 64, bufferLength := 0 }
      else s1
    some (s2, data.drop toCopy)

/-- The `while (length > 0)` loop of `initialization`, with an iteration budget. -/
def SHA1.initLoop : Nat → SHA1 → List Byte → Option SHA1
  | _, s, [] => some s
  | 0, _, _ :: _ => none
  | fuel + 1, s, b :: rest =>
    match s.initStep (b :: rest) with
    | none => none
    | some (s2, data) => SHA1.initLoop fuel s2 data

/-- Function `SHA1::initialization(data, length)` (`sha1.cc` lines 61-93), called on the
`length = data.length` bytes of `data`.  Each pass but possibly the first consumes at
least one byte, so `data.length + 1` passes are enough. -/
def SHA1.initialization (s : SHA1) (data : List Byte) : Option SHA1 :=
  SHA1.initLoop (data.length + 1) s data

/-- Body of the loop of `padding` that stores the bit count, `sha1.cc` line 209. -/
def lengthStep (bitCount : Nat) (buf : Buffer) (i : Nat) : Option Buffer :=
  buf.store (56 + i) (toByte ((bitCount >>> ((7 - i) * 8)) &&& 0xFF))

/-- The `if (bufferLength > 56)` statement of `padding` (`sha1.cc` lines 191-199):
zero-fill to the end of the block, compress it and restart at offset 0. -/
def SHA1.padFlush (s : SHA1) : Option SHA1 :=
  if s.bufferLength > 56 then
    match s.buffer.fill s.bufferLength 0 (subSizeT SHA1_BLOCK_SIZE s.bufferLength) with
    | none => none
    | some buf =>
      let t := ({ s with buffer := buf } : SHA1).transform buf
      some { t with bufferLength := 0 }
  else some s

/-- The last statements of `padding` (`sha1.cc` lines 202-214): zero-fill up to offset
56, store the bit count in bytes `[56, 64)`, compress the block. -/
def SHA1.padFinish (s : SHA1) : Option SHA1 :=
  match s.buffer.fill s.bufferLength 0 (subSizeT 56 s.bufferLength) with
  | none => none
  | some buf =>
    match (List.range 8).foldlM (lengthStep s.bitCount) buf with
    | none => none
    | some buf3 => some (({ s with buffer := buf3 } : SHA1).transform buf3)

/-- Function `SHA1::padding` (`sha1.cc` lines 183-215): count the pending bits, store
`0x80` at `buffer[bufferLength++]`, then the two parts above. -/
def SHA1.padding (s : SHA1) : Option SHA1 :=
  match s.buffer.store s.bufferLength 0x80 with
  | none => none
  | some buf =>
    let s1 : SHA1 :=
      { s with
        bitCount := (s.bitCount + (s.bufferLength * 8) % 2 ^ 64) % 2 ^ 64
        buffer := buf
        bufferLength := (s.bufferLength + 1) % 2 ^ 64 }
    match s1.padFlush with
    | none => none
    | some s2 => s2.padFinish

/-- The four bytes stored for one register by the loop of `final`
(`sha1.cc` lines 228-231), most significant first. -/
def be32 (x : Nat) : List Byte :=
  [toByte ((x >>> 24) &&& 0xFF), toByte ((x >>> 16) &&& 0xFF),
   toByte ((x >>> 8) &&& 0xFF), toByte (x &&& 0xFF)]

/-- The 20 bytes written to `digest` by the loop of `final` for `i = 0..4`. -/
def digestBytes (r : Registers) : List Byte :=
  be32 (r.get 0) ++ be32 (r.get 1) ++ be32 (r.get 2) ++ be32 (r.get 3) ++ be32 (r.get 4)

/-- Function `SHA1::final(digest)` (`sha1.cc` lines 222-233): the state after `padding`
and the bytes written to `digest[0..20)`. -/
def SHA1.final (s : SHA1) : Option (SHA1 × List Byte) :=
  match s.padding with
  | none => none
  | some s1 => some (s1, digestBytes s1.state)

/-- Output of `ss << std::hex << std::setfill('0') << std::setw(2) << n`: the lowercase
base-16 digits of `n`, right-adjusted in a field of width 2 filled with zeros. -/
def hexField (n : Nat) : List Char :=
  let digits := Nat.toDigits 16 n
  List.replicate (2 - digits.length) '0' ++ digits

/-- The loop of `toHexString` reading `digest[i]` for `i` below `length`; `none` when it
reads past the end of `digest`. -/
def toHexLoop : List Byte → Nat → Option (List Char)
  | _, 0 => some []
  | [], _ + 1 => none
  | b :: rest, n + 1 =>
    match toHexLoop rest n with
    | none => none
    | some cs => some (hexField b.val ++ cs)

/-- Function `SHA1::toHexString(digest, length)` (`sha1.cc` lines 242-251). -/
def SHA1.toHexString (digest : List Byte) (length : Nat) : Option String :=
  (toHexLoop digest length).map String.mk

/-- A complete run: construct, `initialization` on each chunk in turn, `final`; the
result is the digest. -/
def sha1Chunks (uninit : Buffer) (chunks : List (List Byte)) : Option (List Byte) :=
  match chunks.foldlM SHA1.initialization (SHA1.construct uninit) with
  | none => none
  | some s => (s.final).map Prod.snd

/-- A complete run with a single `initialization` call on `data`. -/
def sha1Bytes (uninit : Buffer) (data : List Byte) : Option (List Byte) :=
  match (SHA1.construct uninit).initialization data with
  | none => none
  | some s => (s.final).map Prod.snd

/-- A buffer of 64 zero bytes. -/
def zeroBuffer : Buffer := ⟨List.replicate 64 0, by simp⟩

/-! ## Definitions used to state the properties -/

/-- The consecutive 64-byte blocks of a message; a trailing partial block is left out. -/
def blocks64 (msg : List Byte) : List (List Byte) :=
  if 64 ≤ msg.length then msg.take 64 :: blocks64 (msg.drop 64) else []
termination_by msg.length
decreasing_by simp only [List.length_drop]; omega

/-- The bytes held in the staging buffer: its first `bufferLength` bytes. -/
def SHA1.pending (s : SHA1) : List Byte := s.buffer.bytes.take s.bufferLength

/-- The fields of `s` have values of their C types. -/
structure SHA1.InRange (s : SHA1) : Prop where
  bitCount_lt : s.bitCount < 2 ^ 64
  block_number_lt : s.block_number < 2 ^ 64

/-- State `s` is what state `s0` becomes by absorbing the bytes `data`: with `msg` the
bytes pending in `s0` followed by `data`, the registers have been folded over the full
blocks of `msg`, the counters have advanced once per block and the rest of `msg` is
pending. -/
structure Absorbs (s0 : SHA1) (data : List Byte) (s : SHA1) : Prop where
  state_eq : s.state = (blocks64 (s0.pending ++ data)).foldl compress s0.state
  bitCount_eq :
    s.bitCount = (s0.bitCount + 512 * ((s0.pending ++ data).length / 64)) % 2 ^ 64
  block_number_eq :
    s.block_number = (s0.block_number + (s0.pending ++ data).length / 64) % 2 ^ 64
  bufferLength_eq : s.bufferLength = (s0.pending ++ data).length % 64
  pending_eq :
    s.pending = (s0.pending ++ data).drop (64 * ((s0.pending ++ data).length / 64))

/-- The number of zero bytes of the padding of an `n`-byte message. -/
def padZeros (n : Nat) : Nat := (119 - n % 64) % 64

/-- The eight bytes of a 64-bit value, most significant first. -/
def be64 (x : Nat) : List Byte :=
  [toByte (x / 2 ^ 56), toByte (x / 2 ^ 48), toByte (x / 2 ^ 40), toByte (x / 2 ^ 32),
   toByte (x / 2 ^ 24), toByte (x / 2 ^ 16), toByte (x / 2 ^ 8), toByte x]

/-- What the padding appends to a message with `n` bytes outside its compressed blocks
and a total of `bits` bits: the byte `0x80`, the zero bytes, the bit length. -/
def padTail (n bits : Nat) : List Byte :=
  [(0x80 : Byte)] ++ List.replicate (padZeros n) 0 ++ be64 bits

/-- The padded message: the message, the byte `0x80`, `padZeros` zero bytes and the
bit length modulo `2 ^ 64` as eight big-endian bytes. -/
def padMessage (msg : List Byte) : List Byte :=
  msg ++ [(0x80 : Byte)] ++ List.replicate (padZeros msg.length) 0 ++
    be64 ((8 * msg.length) % 2 ^ 64)

/-- The initial register values of the standard. -/
def initialRegisters : Registers :=
  ⟨0x67452301, 0xEFCDAB89, 0x98BADCFE, 0x10325476, 0xC3D2E1F0⟩

/-- The four bytes of a 32-bit value, most significant first. -/
def wordBytes (x : Nat) : List Byte :=
  [toByte (x / 2 ^ 24), toByte (x / 2 ^ 16), toByte (x / 2 ^ 8), toByte x]

/-- Big-endian serialisation of the five registers, in register order. -/
def serialize (r : Registers) : List Byte :=
  wordBytes r.h0 ++ wordBytes r.h1 ++ wordBytes r.h2 ++ wordBytes r.h3 ++ wordBytes r.h4

/-- The value of a byte string read as a big-endian number. -/
def beValue (bs : List Byte) : Nat := bs.foldl (fun acc b => acc * 256 + b.val) 0

/-- The registers reached from `r` by folding the compression function over the
consecutive 64-byte blocks of `msg`. -/
def foldBlocks (r : Registers) (msg : List Byte) : Registers :=
  (blocks64 msg).foldl compress r

/-- The digest of the standard: the compression function folded over the blocks of the
padded message from the initial registers, serialised big-endian. -/
def sha1Spec (msg : List Byte) : List Byte :=
  serialize (foldBlocks initialRegisters (padMessage msg))

/-- The sixteen lowercase hexadecimal digits, in increasing value. -/
def hexAlphabet : List Char := "0123456789abcdef".toList

/-- The lowercase hexadecimal digit of value `d`, for `d` below 16. -/
def hexDigit (d : Nat) : Char := hexAlphabet.getD d '0'

/-- The value of a lowercase hexadecimal digit (16 for any other character). -/
def hexValue (c : Char) : Nat := hexAlphabet.indexOf c

/-- Decoding of a hexadecimal string two characters at a time, the first character of
each pair being the high nibble. -/
def decodeHex : List Char → List Nat
  | c1 :: c2 :: rest => (16 * hexValue c1 + hexValue c2) :: decodeHex rest
  | _ => []

/-- Rotation of a 32-bit word to the left by `n` places: the top `n` bits re-enter at the
bottom. -/
def rotl32 (x n : Nat) : Nat := (x * 2 ^ n) % 2 ^ 32 + x / 2 ^ (32 - n)

/-- Complement of a 32-bit word. -/
def not32 (x : Nat) : Nat := 2 ^ 32 - 1 - x

/-- The round function `f` of round `i`, by range of `i`. -/
def roundF (i b c d : Nat) : Nat :=
  if i < 20 then (b &&& c) ||| (not32 b &&& d)
  else if i < 40 then b ^^^ c ^^^ d
  else if i < 60 then (b &&& c) ||| (b &&& d) ||| (c &&& d)
  else b ^^^ c ^^^ d

/-- The round constant `k` of round `i`, by range of `i`. -/
def roundK (i : Nat) : Nat :=
  if i < 20 then 0x5A827999
  else if i < 40 then 0x6ED9EBA1
  else if i < 60 then 0x8F1BBCDC
  else 0xCA62C1D6

/-- The working variables `(a, b, c, d, e)` after rounds `0 .. n - 1`, from the start
values `v`, with schedule words `w`:
`temp = rotl(a,5) + f + e + k + w[i]`, `e = d`, `d = c`, `c = rotl(b,30)`, `b = a`,
`a = temp`. -/
def roundsSpec (w : Nat → Nat) (v : Registers) : Nat → Registers
  | 0 => v
  | i + 1 =>
    let p := roundsSpec w v i
    { h0 := (rotl32 p.h0 5 + roundF i p.h1 p.h2 p.h3 + p.h4 + roundK i + w i) % 2 ^ 32
      h1 := p.h0
      h2 := rotl32 p.h1 30
      h3 := p.h2
      h4 := p.h3 }

/-- The five registers hold 32-bit values. -/
def Registers.InRange (r : Registers) : Prop :=
  r.h0 < 2 ^ 32 ∧ r.h1 < 2 ^ 32 ∧ r.h2 < 2 ^ 32 ∧ r.h3 < 2 ^ 32 ∧ r.h4 < 2 ^ 32

/-- States `s` and `t` agree on everything the digest is computed from: the registers,
the staging buffer and its length are equal and the bit counts are equal modulo `2 ^ 64`;
the block counter of `s` is that of `t` plus `d`, modulo `2 ^ 64`. -/
structure Agree (d : Nat) (s t : SHA1) : Prop where
  state_eq : s.state = t.state
  bufferLength_eq : s.bufferLength = t.bufferLength
  buffer_eq : s.buffer = t.buffer
  bitCount_mod : s.bitCount % 2 ^ 64 = t.bitCount % 2 ^ 64
  block_number_mod : s.block_number % 2 ^ 64 = (t.block_number + d) % 2 ^ 64

/-- The state with its two 64-bit counters reduced to their C range. -/
def SHA1.normalize (s : SHA1) : SHA1 :=
  { s with bitCount := s.bitCount % 2 ^ 64, block_number := s.block_number % 2 ^ 64 }

/-- From state `s`: one `initialization` call on `data`, then `final`; the result is the
digest. -/
def SHA1.absorbFinal (s : SHA1) (data : List Byte) : Option (List Byte) :=
  match s.initialization data with
  | none => none
  | some s2 => (s2.final).map Prod.snd

/-- Two `final` calls in a row on the same object: the state and the digest of the
second call. -/
def SHA1.finalTwice (s : SHA1) : Option (SHA1 × List Byte) :=
  match s.final with
  | none => none
  | some (s1, _) => s1.final

/-- A freshly constructed state whose block counter has been set to the largest 64-bit
value. -/
def counterAtMax : SHA1 :=
  { SHA1.construct zeroBuffer with block_number := 2 ^ 64 - 1 }

/-- A shift count that `leftRotate` may be called with: both `value << count` and
`value >> (32 - count)` shift a 32-bit operand by fewer than 32 places. -/
def rotationCountOk (count : Nat) : Prop := 0 < count ∧ count < 32

instance (count : Nat) : Decidable (rotationCountOk count) := by
  unfold rotationCountOk; infer_instance

/-- The accesses of one pass of the first schedule loop are within the arrays:
`block[i*4] .. block[i*4+3]` are read and `w[i]` is written. -/
def parseStepInBounds (block : List Byte) (w : List Nat) (i : Nat) : Prop :=
  i * 4 < block.length ∧ i * 4 + 1 < block.length ∧ i * 4 + 2 < block.length ∧
    i * 4 + 3 < block.length ∧ i < w.length

instance (block : List Byte) (w : List Nat) (i : Nat) :
    Decidable (parseStepInBounds block w i) := by
  unfold parseStepInBounds; infer_instance

/-- The accesses of one pass of the expansion loop are within `w`: `w[i-3]`, `w[i-8]`,
`w[i-14]`, `w[i-16]` are read, none at a negative index, and `w[i]` is written; the word
is rotated by 1. -/
def expandStepInBounds (w : List Nat) (i : Nat) : Prop :=
  16 ≤ i ∧ i - 3 < w.length ∧ i - 8 < w.length ∧ i - 14 < w.length ∧ i - 16 < w.length ∧
    i < w.length ∧ rotationCountOk 1

instance (w : List Nat) (i : Nat) : Decidable (expandStepInBounds w i) := by
  unfold expandStepInBounds; infer_instance

/-- The accesses of one round are within `w`: `w[i]` is read; the rotations are by 5 and
by 30. -/
def roundStepInBounds (w : List Nat) (i : Nat) : Prop :=
  i < w.length ∧ rotationCountOk 5 ∧ rotationCountOk 30

instance (w : List Nat) (i : Nat) : Decidable (roundStepInBounds w i) := by
  unfold roundStepInBounds; infer_instance

/-- One pass of the first schedule loop, `none` when an access is out of bounds. -/
def parseStepChecked (block : List Byte) (w : List Nat) (i : Nat) : Option (List Nat) :=
  if parseStepInBounds block w i then some (parseStep block w i) else none

/-- One pass of the expansion loop, `none` when an access is out of bounds or the
rotation count is not allowed. -/
def expandStepChecked (w : List Nat) (i : Nat) : Option (List Nat) :=
  if expandStepInBounds w i then some (expandStep w i) else none

/-- One round, `none` when an access is out of bounds or a rotation count is not
allowed. -/
def roundStepChecked (w : List Nat) (v : Registers) (i : Nat) : Option Registers :=
  if roundStepInBounds w i then some (roundStep w v i) else none

/-- The schedule loops of `transform` on the 80-word array `w`, with every access
checked. -/
def scheduleChecked (block : List Byte) : Option (List Nat) :=
  match (List.range 16).foldlM (parseStepChecked block) (List.replicate 80 0) with
  | none => none
  | some w => (List.range' 16 64).foldlM expandStepChecked w

/-- The register update of `transform` with every access checked. -/
def compressChecked (regs : Registers) (block : List Byte) : Option Registers :=
  match scheduleChecked block with
  | none => none
  | some w =>
    match (List.range 80).foldlM (roundStepChecked w) regs with
    | none => none
    | some v =>
      some ⟨(regs.h0 + v.h0) % 2 ^ 32, (regs.h1 + v.h1) % 2 ^ 32, (regs.h2 + v.h2) % 2 ^ 32,
        (regs.h3 + v.h3) % 2 ^ 32, (regs.h4 + v.h4) % 2 ^ 32⟩

/-- Function `SHA1::transform` with every array access and rotation count checked:
`none` stands for undefined behaviour. -/
def SHA1.transformChecked (s : SHA1) (block : Buffer) : Option SHA1 :=
  match compressChecked s.state block.bytes with
  | none => none
  | some r => some { s with block_number := (s.block_number + 1) % 2 ^ 64, state := r }

/-- The first two statements of `padding` (`sha1.cc` lines 185-187): count the pending
bits and store `0x80` at `buffer[bufferLength++]`. -/
def SHA1.padStart (s : SHA1) : Option SHA1 :=
  match s.buffer.store s.bufferLength 0x80 with
  | none => none
  | some buf =>
    some { s with
      bitCount := (s.bitCount + (s.bufferLength * 8) % 2 ^ 64) % 2 ^ 64
      buffer := buf
      bufferLength := (s.bufferLength + 1) % 2 ^ 64 }

/-! ## Splitting a message into blocks -/

theorem blocks64_short (msg : List Byte) (h : msg.length < 64) : blocks64 msg = [] := by
  rw [blocks64, if_neg (by omega)]

theorem blocks64_cons (blk msg : List Byte) (h : blk.length = 64) :
    blocks64 (blk ++ msg) = blk :: blocks64 msg := by
  rw [blocks64, if_pos (by simp [h])]
  simp [List.take_append_eq_append_take, List.drop_append_eq_append_drop, h]

theorem blocks64_append (k : Nat) : ∀ (a b : List Byte), a.length = 64 * k →
    blocks64 (a ++ b) = blocks64 a ++ blocks64 b := by
  induction k with
  | zero =>
    intro a b h
    have : a = [] := List.length_eq_zero.mp (by omega)
    subst this
    simp [blocks64_short]
  | succ k ih =>
    intro a b h
    have h1 : a = a.take 64 ++ a.drop 64 := (List.take_append_drop 64 a).symm
    have h2 : (a.take 64).length = 64 := by simp; omega
    have h3 : (a.drop 64).length = 64 * k := by simp; omega
    rw [h1, List.append_assoc, blocks64_cons _ _ h2, blocks64_cons _ _ h2, ih _ _ h3]
    simp

/-! ## The relation between a state and the bytes it has absorbed -/

theorem split64 (msg : List Byte) :
    ∃ a r, msg = a ++ r ∧ a.length = 64 * (msg.length / 64) ∧
      r.length = msg.length % 64 ∧ r = msg.drop (64 * (msg.length / 64)) := by
  refine ⟨msg.take (64 * (msg.length / 64)), msg.drop (64 * (msg.length / 64)),
    (List.take_append_drop _ _).symm, ?_, ?_, rfl⟩
  · simp only [List.length_take]; omega
  · simp only [List.length_drop]; omega

theorem blocks64_append_tail (msg y : List Byte) :
    blocks64 (msg ++ y) =
      blocks64 msg ++ blocks64 (msg.drop (64 * (msg.length / 64)) ++ y) := by
  obtain ⟨a, r, hm, ha, hr, hd⟩ := split64 msg
  rw [← hd]
  have h1 : blocks64 msg = blocks64 a := by
    conv_lhs => rw [hm]
    rw [blocks64_append _ a r ha, blocks64_short r (by omega)]
    simp
  rw [h1]
  conv_lhs => rw [hm, List.append_assoc]
  exact blocks64_append _ a (r ++ y) ha

theorem drop_append_tail (msg y : List Byte) :
    (msg ++ y).drop (64 * ((msg ++ y).length / 64)) =
      (msg.drop (64 * (msg.length / 64)) ++ y).drop
        (64 * ((msg.drop (64 * (msg.length / 64)) ++ y).length / 64)) := by
  obtain ⟨a, r, hm, ha, hr, hd⟩ := split64 msg
  rw [← hd]
  have hl : (msg ++ y).length = a.length + (r ++ y).length := by
    rw [hm]; simp only [List.length_append]; omega
  have hq : 64 * ((msg ++ y).length / 64) = a.length + 64 * ((r ++ y).length / 64) := by
    rw [hl, ha]; omega
  rw [hq]
  conv_lhs => rw [hm, List.append_assoc]
  rw [List.drop_append]

theorem SHA1.pending_length (s : SHA1) (h : s.bufferLength ≤ 64) :
    s.pending.length = s.bufferLength := by
  have := s.buffer.size_eq
  simp only [SHA1.pending, List.length_take]
  omega

theorem Absorbs.bufferLength_lt {s0 s : SHA1} {data : List Byte} (h : Absorbs s0 data s) :
    s.bufferLength < 64 := by
  rw [h.bufferLength_eq]; omega

theorem Absorbs.inRange {s0 s : SHA1} {data : List Byte} (h : Absorbs s0 data s) :
    s.InRange :=
  ⟨by rw [h.bitCount_eq]; exact Nat.mod_lt _ (by norm_num),
   by rw [h.block_number_eq]; exact Nat.mod_lt _ (by norm_num)⟩

theorem Absorbs.refl (s : SHA1) (hL : s.bufferLength < 64) (hr : s.InRange) :
    Absorbs s [] s := by
  have hp := s.pending_length (by omega)
  have hb := hr.bitCount_lt
  have hn := hr.block_number_lt
  have hlen : (s.pending ++ []).length = s.bufferLength := by simp [hp]
  have hq : (s.pending ++ ([] : List Byte)).length / 64 = 0 := by omega
  constructor
  · rw [blocks64_short _ (by omega)]; rfl
  · rw [hq]; omega
  · rw [hq]; omega
  · omega
  · rw [hq]; simp

theorem Absorbs.trans {s0 s1 s2 : SHA1} {x y : List Byte}
    (h1 : Absorbs s0 x s1) (h2 : Absorbs s1 y s2) : Absorbs s0 (x ++ y) s2 := by
  have hp := h1.pending_eq
  have e1 := h2.state_eq
  have e2 := h2.bitCount_eq
  have e3 := h2.block_number_eq
  have e4 := h2.bufferLength_eq
  have e5 := h2.pending_eq
  rw [hp] at e1 e2 e3 e4 e5
  have hl : ((s0.pending ++ x).drop (64 * ((s0.pending ++ x).length / 64)) ++ y).length
      = (s0.pending ++ x).length % 64 + y.length := by
    simp only [List.length_append, List.length_drop]; omega
  have hl2 : (s0.pending ++ (x ++ y)).length = (s0.pending ++ x).length + y.length := by
    simp only [List.length_append]; omega
  rw [hl] at e2 e3 e4
  constructor
  · rw [e1, h1.state_eq, ← List.foldl_append, ← List.append_assoc,
      blocks64_append_tail (s0.pending ++ x) y]
  · rw [e2, h1.bitCount_eq, hl2]; omega
  · rw [e3, h1.block_number_eq, hl2]; omega
  · rw [e4, hl2]; omega
  · rw [e5, ← List.append_assoc, drop_append_tail (s0.pending ++ x) y]

/-! ## The loop of `initialization` -/

theorem subSizeT_of_le (a b : Nat) (h : b ≤ a) (ha : a < 2 ^ 64) : subSizeT a b = a - b := by
  unfold subSizeT
  have : a + 2 ^ 64 - b = (a - b) + 2 ^ 64 := by omega
  rw [this, Nat.add_mod_right, Nat.mod_eq_of_lt (by omega)]

theorem SHA1.initStep_spec (s : SHA1) (data : List Byte) (hL : s.bufferLength < 64)
    (hr : s.InRange) (hd : data ≠ []) :
    ∃ s2, s.initStep data = some (s2, data.drop (min data.length (64 - s.bufferLength))) ∧
      Absorbs s (data.take (min data.length (64 - s.bufferLength))) s2 := by
  have hsz := s.buffer.size_eq
  have hp := s.pending_length (by omega)
  have hb := hr.bitCount_lt
  have hn := hr.block_number_lt
  have hdl : 0 < data.length := List.length_pos.mpr hd
  have hsub : subSizeT SHA1_BLOCK_SIZE s.bufferLength = 64 - s.bufferLength :=
    subSizeT_of_le 64 _ (by omega) (by norm_num)
  unfold SHA1.initStep
  simp only [hsub]
  generalize ht : min data.length (64 - s.bufferLength) = t
  have ht1 : t ≤ data.length := by omega
  have ht2 : s.bufferLength + t ≤ 64 := by omega
  have hlt : (data.take t).length = t := by simp only [List.length_take]; omega
  have hmod : (s.bufferLength + t) % 2 ^ 64 = s.bufferLength + t :=
    Nat.mod_eq_of_lt (by omega)
  have hmsg : (s.pending ++ data.take t).length = s.bufferLength + t := by
    simp only [List.length_append, hp, hlt]
  simp only [Buffer.copy, dif_pos (And.intro ht2 ht1), hmod]
  by_cases hfull : s.bufferLength + t = 64
  · simp only [hfull, SHA1_BLOCK_SIZE, if_true]
    refine ⟨_, rfl, ?_⟩
    have hdrop : s.buffer.bytes.drop 64 = [] := List.drop_of_length_le (by omega)
    have hq : (s.pending ++ data.take t).length / 64 = 1 := by omega
    have hblk : blocks64 (s.pending ++ data.take t) = [s.pending ++ data.take t] := by
      have := blocks64_cons (s.pending ++ data.take t) [] (by omega)
      simpa [blocks64_short] using this
    constructor
    · rw [hblk]
      simp only [SHA1.transform, List.foldl_cons, List.foldl_nil, hdrop,
        List.append_nil, SHA1.pending]
    · simp only [SHA1.transform, hq]
    · simp only [SHA1.transform, hq]
    · simp only [hmsg]; omega
    · simp only [hq, Nat.mul_one]
      have e : List.drop 64 (s.pending ++ data.take t) = [] :=
        List.drop_of_length_le (by omega)
      rw [e]
      simp [SHA1.pending, SHA1.transform]
  · simp only [hfull, SHA1_BLOCK_SIZE, if_false]
    refine ⟨_, rfl, ?_⟩
    have hq : (s.pending ++ data.take t).length / 64 = 0 := by omega
    constructor
    · rw [blocks64_short _ (by omega)]; rfl
    · simp only [hq]; omega
    · simp only [hq]; omega
    · simp only [hmsg]; omega
    · rw [hq, Nat.mul_zero, List.drop_zero]
      simp only [SHA1.pending]
      exact List.take_left' (by simpa only [SHA1.pending] using hmsg)

theorem SHA1.initLoop_spec : ∀ (fuel : Nat) (s : SHA1) (data : List Byte),
    data.length < fuel → s.bufferLength < 64 → s.InRange →
    ∃ s2, SHA1.initLoop fuel s data = some s2 ∧ Absorbs s data s2 := by
  intro fuel
  induction fuel with
  | zero => intro s data h; omega
  | succ fuel ih =>
    intro s data hf hL hr
    cases data with
    | nil => exact ⟨s, by simp [SHA1.initLoop], Absorbs.refl s hL hr⟩
    | cons b rest =>
      obtain ⟨s1, h1, a1⟩ := s.initStep_spec (b :: rest) hL hr (by simp)
      have hlen : ((b :: rest).drop (min (b :: rest).length (64 - s.bufferLength))).length
          < fuel := by
        simp only [List.length_drop, List.length_cons] at hf ⊢
        omega
      obtain ⟨s2, h2, a2⟩ := ih s1 _ hlen a1.bufferLength_lt a1.inRange
      refine ⟨s2, ?_, ?_⟩
      · simp only [SHA1.initLoop, h1, h2]
      · have := a1.trans a2
        rwa [List.take_append_drop] at this

theorem SHA1.initialization_spec (s : SHA1) (data : List Byte) (hL : s.bufferLength < 64)
    (hr : s.InRange) : ∃ s2, s.initialization data = some s2 ∧ Absorbs s data s2 :=
  SHA1.initLoop_spec _ s data (Nat.lt_succ_self _) hL hr

/-! ## The steps of `padding` -/

theorem take_succ_set {α : Type} (l : List α) (n m : Nat) (v : α) (hm : m = n + 1)
    (h : n < l.length) : (l.set n v).take m = l.take n ++ [v] := by
  subst hm
  rw [List.set_eq_take_append_cons_drop, if_pos h]
  have e : l.take n ++ v :: l.drop (n + 1) = (l.take n ++ [v]) ++ l.drop (n + 1) := by simp
  rw [e]
  exact List.take_left' (by simp only [List.length_append, List.length_take,
    List.length_singleton]; omega)

theorem toByte_and (x : Nat) : toByte (x &&& 255) = toByte x := by
  have h : (255 : Nat) = 2 ^ 8 - 1 := by norm_num
  rw [h, Nat.and_pow_two_sub_one_eq_mod]
  apply Fin.ext
  simp [toByte]

theorem toByte_shift_and (x n : Nat) : toByte ((x >>> n) &&& 255) = toByte (x / 2 ^ n) := by
  rw [toByte_and, Nat.shiftRight_eq_div_pow]

theorem set8_eq {α : Type} (l : List α) (h : l.length = 64) (a0 a1 a2 a3 a4 a5 a6 a7 : α) :
    (((((((l.set 56 a0).set 57 a1).set 58 a2).set 59 a3).set 60 a4).set 61 a5).set 62 a6).set
      63 a7 = l.take 56 ++ [a0, a1, a2, a3, a4, a5, a6, a7] := by
  have e : ∀ (t : List α), t.length = 64 → t.take 64 = t := fun t ht =>
    List.take_of_length_le (by omega)
  rw [← e (List.set _ 63 a7) (by simp only [List.length_set]; exact h)]
  rw [take_succ_set _ 63 64 _ rfl (by simp only [List.length_set]; omega),
    take_succ_set _ 62 63 _ rfl (by simp only [List.length_set]; omega),
    take_succ_set _ 61 62 _ rfl (by simp only [List.length_set]; omega),
    take_succ_set _ 60 61 _ rfl (by simp only [List.length_set]; omega),
    take_succ_set _ 59 60 _ rfl (by simp only [List.length_set]; omega),
    take_succ_set _ 58 59 _ rfl (by simp only [List.length_set]; omega),
    take_succ_set _ 57 58 _ rfl (by simp only [List.length_set]; omega),
    take_succ_set _ 56 57 _ rfl (by omega)]
  simp

/-- The eight stores of the bit count fill bytes `[56, 64)` with `be64`. -/
theorem lengthLoop_spec (bits : Nat) (buf : Buffer) :
    ∃ buf3, (List.range 8).foldlM (lengthStep bits) buf = some buf3 ∧
      buf3.bytes = buf.bytes.take 56 ++ be64 bits := by
  have hsz := buf.size_eq
  simp only [List.range, List.range.loop, List.foldlM, lengthStep, Buffer.store]
  simp
  rw [set8_eq _ hsz]
  simp only [be64, toByte_shift_and, toByte_and, Nat.shiftRight_eq_div_pow]

theorem SHA1.padFinish_spec (s : SHA1) (h : s.bufferLength ≤ 56) :
    ∃ s2, s.padFinish = some s2 ∧
      s2.state = compress s.state
        (s.pending ++ List.replicate (56 - s.bufferLength) 0 ++ be64 s.bitCount) ∧
      s2.bitCount = s.bitCount ∧
      s2.block_number = (s.block_number + 1) % 2 ^ 64 ∧
      s2.bufferLength = s.bufferLength ∧
      s2.buffer.bytes =
        s.pending ++ List.replicate (56 - s.bufferLength) 0 ++ be64 s.bitCount := by
  have hsz := s.buffer.size_eq
  have hp := s.pending_length (by omega)
  have hsub : subSizeT 56 s.bufferLength = 56 - s.bufferLength :=
    subSizeT_of_le 56 _ h (by norm_num)
  have hle : s.bufferLength + (56 - s.bufferLength) ≤ 64 := by omega
  unfold SHA1.padFinish
  simp only [hsub, Buffer.fill, dif_pos hle]
  obtain ⟨buf3, h3, hb3⟩ := lengthLoop_spec s.bitCount
    ⟨s.buffer.bytes.take s.bufferLength ++ List.replicate (56 - s.bufferLength) 0 ++
      s.buffer.bytes.drop (s.bufferLength + (56 - s.bufferLength)), by
        simp only [List.length_append, List.length_take, List.length_drop,
          List.length_replicate]
        omega⟩
  simp only [h3]
  have htake : List.take 56 (s.buffer.bytes.take s.bufferLength ++
      List.replicate (56 - s.bufferLength) 0 ++
      s.buffer.bytes.drop (s.bufferLength + (56 - s.bufferLength)))
      = s.buffer.bytes.take s.bufferLength ++ List.replicate (56 - s.bufferLength) 0 :=
    List.take_left' (by
      simp only [List.length_append, List.length_take, List.length_replicate]; omega)
  refine ⟨_, rfl, ?_, ?_, ?_, ?_, ?_⟩
  · simp only [SHA1.transform, hb3, htake, SHA1.pending]
  · simp only [SHA1.transform]
  · simp only [SHA1.transform]
  · simp only [SHA1.transform]
  · simp only [SHA1.transform, hb3, htake, SHA1.pending]

theorem SHA1.padFlush_le (s : SHA1) (h : s.bufferLength ≤ 56) : s.padFlush = some s := by
  unfold SHA1.padFlush
  rw [if_neg (by omega)]

theorem SHA1.padFlush_gt (s : SHA1) (h : 56 < s.bufferLength) (h64 : s.bufferLength ≤ 64) :
    ∃ s2, s.padFlush = some s2 ∧
      s2.state = compress s.state
        (s.pending ++ List.replicate (64 - s.bufferLength) 0) ∧
      s2.bitCount = s.bitCount ∧
      s2.block_number = (s.block_number + 1) % 2 ^ 64 ∧
      s2.bufferLength = 0 := by
  have hsz := s.buffer.size_eq
  have hsub : subSizeT SHA1_BLOCK_SIZE s.bufferLength = 64 - s.bufferLength :=
    subSizeT_of_le 64 _ h64 (by norm_num)
  have hle : s.bufferLength + (64 - s.bufferLength) ≤ 64 := by omega
  have hdrop : s.buffer.bytes.drop (s.bufferLength + (64 - s.bufferLength)) = [] :=
    List.drop_of_length_le (by omega)
  unfold SHA1.padFlush
  simp only [if_pos h, hsub, Buffer.fill, dif_pos hle]
  refine ⟨_, rfl, ?_, ?_, ?_, ?_⟩
  · simp only [SHA1.transform, hdrop, List.append_nil, SHA1.pending]
  · simp only [SHA1.transform]
  · simp only [SHA1.transform]
  · simp only [SHA1.transform]

theorem be64_length (x : Nat) : (be64 x).length = 8 := by simp [be64]

theorem blocks64_one (blk : List Byte) (h : blk.length = 64) : blocks64 blk = [blk] := by
  have := blocks64_cons blk [] h
  simpa [blocks64_short] using this

theorem blocks64_two (a b : List Byte) (ha : a.length = 64) (hb : b.length = 64) :
    blocks64 (a ++ b) = [a, b] := by
  rw [blocks64_cons a b ha, blocks64_one b hb]

theorem SHA1.padding_spec (s : SHA1) (hL : s.bufferLength < 64) :
    ∃ s2, s.padding = some s2 ∧
      s2.state = (blocks64 (s.pending ++
        padTail s.bufferLength ((s.bitCount + 8 * s.bufferLength) % 2 ^ 64))).foldl
          compress s.state ∧
      s2.bitCount = (s.bitCount + 8 * s.bufferLength) % 2 ^ 64 ∧
      s2.block_number =
        (s.block_number + (if 56 ≤ s.bufferLength then 2 else 1)) % 2 ^ 64 ∧
      s2.bufferLength = (if 56 ≤ s.bufferLength then 0 else s.bufferLength + 1) ∧
      s2.buffer.bytes.drop 56 = be64 ((s.bitCount + 8 * s.bufferLength) % 2 ^ 64) ∧
      (∃ r blk, s2.state = compress r blk) := by
  have hsz := s.buffer.size_eq
  have hp := s.pending_length (by omega)
  have hbits : (s.bitCount + s.bufferLength * 8 % 2 ^ 64) % 2 ^ 64
      = (s.bitCount + 8 * s.bufferLength) % 2 ^ 64 := by omega
  have hmod : (s.bufferLength + 1) % 2 ^ 64 = s.bufferLength + 1 :=
    Nat.mod_eq_of_lt (by omega)
  have h80 : (s.buffer.bytes.set s.bufferLength 0x80).take (s.bufferLength + 1)
      = s.pending ++ [(0x80 : Byte)] := take_succ_set _ _ _ _ rfl (by omega)
  unfold SHA1.padding
  simp only [Buffer.store, if_pos hL]
  rw [hbits, hmod]
  generalize hbv : (s.bitCount + 8 * s.bufferLength) % 2 ^ 64 = bits
  suffices key : ∀ s1 : SHA1, s1.state = s.state → s1.bitCount = bits →
      s1.bufferLength = s.bufferLength + 1 → s1.block_number = s.block_number →
      s1.pending = s.pending ++ [(0x80 : Byte)] →
      ∃ s2, (match s1.padFlush with
          | none => none
          | some s2 => s2.padFinish) = some s2 ∧
        s2.state = (blocks64 (s.pending ++ padTail s.bufferLength bits)).foldl
          compress s.state ∧
        s2.bitCount = bits ∧
        s2.block_number =
          (s.block_number + (if 56 ≤ s.bufferLength then 2 else 1)) % 2 ^ 64 ∧
        s2.bufferLength = (if 56 ≤ s.bufferLength then 0 else s.bufferLength + 1) ∧
        s2.buffer.bytes.drop 56 = be64 bits ∧
        (∃ r blk, s2.state = compress r blk) from
    key _ rfl rfl rfl rfl h80
  intro s1 e1 e2 e3 e4 e5
  have hbe := be64_length bits
  by_cases h56 : 56 ≤ s.bufferLength
  · obtain ⟨s2, f1, f2, f3, f4, f5⟩ := s1.padFlush_gt (by omega) (by omega)
    obtain ⟨s3, g1, g2, g3, g4, g5, g6⟩ := s2.padFinish_spec (by omega)
    have hp2 : s2.pending = [] := by simp [SHA1.pending, f5]
    refine ⟨s3, by simp only [f1, g1], ?_, ?_, ?_, ?_, ?_, ⟨_, _, g2⟩⟩
    · have hz : padZeros s.bufferLength = (63 - s.bufferLength) + 56 := by
        unfold padZeros; omega
      have hsplit : s.pending ++ padTail s.bufferLength bits
          = (s.pending ++ [(0x80 : Byte)] ++ List.replicate (63 - s.bufferLength) 0) ++
            (List.replicate 56 0 ++ be64 bits) := by
        simp only [padTail, hz, List.replicate_add, List.append_assoc]
      rw [hsplit, blocks64_two _ _
        (by simp only [List.length_append, List.length_replicate, List.length_singleton, hp]
            omega)
        (by simp only [List.length_append, List.length_replicate, hbe])]
      rw [g2, f2, hp2, f5, f3, e1, e2, e3, e5]
      simp only [List.foldl_cons, List.foldl_nil, List.nil_append]
      have : 64 - (s.bufferLength + 1) = 63 - s.bufferLength := by omega
      rw [this]
    · rw [g3, f3, e2]
    · rw [g4, f4, e4, if_pos h56]; omega
    · rw [g5, f5, if_pos h56]
    · rw [g6, f3, e2]
      exact List.drop_left' (by
        simp only [List.length_append, List.length_replicate, hp2, f5]; rfl)
  · have f1 := s1.padFlush_le (by omega)
    obtain ⟨s3, g1, g2, g3, g4, g5, g6⟩ := s1.padFinish_spec (by omega)
    refine ⟨s3, by simp only [f1, g1], ?_, ?_, ?_, ?_, ?_, ⟨_, _, g2⟩⟩
    · have hz : padZeros s.bufferLength = 55 - s.bufferLength := by
        unfold padZeros; omega
      have hsplit : s.pending ++ padTail s.bufferLength bits
          = s.pending ++ [(0x80 : Byte)] ++ List.replicate (55 - s.bufferLength) 0 ++
            be64 bits := by
        simp only [padTail, hz, List.append_assoc]
      rw [hsplit, blocks64_one _
        (by simp only [List.length_append, List.length_replicate, List.length_singleton, hp,
              hbe]
            omega)]
      rw [g2, e1, e2, e3, e5]
      simp only [List.foldl_cons, List.foldl_nil]
      have : 56 - (s.bufferLength + 1) = 55 - s.bufferLength := by omega
      rw [this]
    · rw [g3, e2]
    · rw [g4, e4, if_neg h56]
    · rw [g5, e3, if_neg h56]
    · rw [g6, e2]
      exact List.drop_left' (by
        simp only [List.length_append, List.length_replicate, List.length_singleton, e5, e3,
          hp]
        omega)

/-! ## Complete runs -/

theorem digestBytes_eq_serialize (r : Registers) : digestBytes r = serialize r := by
  simp only [digestBytes, serialize, be32, wordBytes, Registers.get, toByte_and,
    Nat.shiftRight_eq_div_pow]

theorem serialize_length (r : Registers) : (serialize r).length = 20 := by
  simp [serialize, wordBytes]

theorem be64_value (x : Nat) (h : x < 2 ^ 64) : beValue (be64 x) = x := by
  simp only [beValue, be64, toByte, List.foldl_cons, List.foldl_nil]
  omega

theorem wordBytes_value (x : Nat) (h : x < 2 ^ 32) : beValue (wordBytes x) = x := by
  simp only [beValue, wordBytes, toByte, List.foldl_cons, List.foldl_nil]
  omega

theorem padZeros_spec (n : Nat) :
    64 ∣ n + 1 + padZeros n + 8 ∧ ∀ j, j < padZeros n → ¬ 64 ∣ n + 1 + j + 8 := by
  unfold padZeros
  constructor
  · omega
  · intro j hj; omega

theorem padMessage_length (msg : List Byte) :
    (padMessage msg).length = msg.length + 1 + padZeros msg.length + 8 := by
  simp only [padMessage, List.length_append, List.length_replicate, List.length_singleton,
    be64_length]

theorem SHA1.construct_inRange (uninit : Buffer) : (SHA1.construct uninit).InRange :=
  ⟨by simp [SHA1.construct], by simp [SHA1.construct]⟩

theorem SHA1.construct_pending (uninit : Buffer) : (SHA1.construct uninit).pending = [] := by
  simp [SHA1.pending, SHA1.construct]

/-- Absorbing a sequence of chunks is absorbing their concatenation. -/
theorem SHA1.chunks_spec : ∀ (chunks : List (List Byte)) (s : SHA1),
    s.bufferLength < 64 → s.InRange →
    ∃ s2, chunks.foldlM SHA1.initialization s = some s2 ∧ Absorbs s chunks.flatten s2 := by
  intro chunks
  induction chunks with
  | nil =>
    intro s hL hr
    exact ⟨s, rfl, Absorbs.refl s hL hr⟩
  | cons c rest ih =>
    intro s hL hr
    obtain ⟨s1, h1, a1⟩ := s.initialization_spec c hL hr
    obtain ⟨s2, h2, a2⟩ := ih s1 a1.bufferLength_lt a1.inRange
    refine ⟨s2, ?_, ?_⟩
    · rw [List.foldlM_cons, h1]
      exact h2
    · rw [List.flatten_cons]
      exact a1.trans a2

/-- From a state that has absorbed `msg` since construction, `final` produces the
digest of the standard for `msg`. -/
theorem SHA1.final_of_absorbs (uninit : Buffer) (msg : List Byte) (s : SHA1)
    (h : Absorbs (SHA1.construct uninit) msg s) :
    ∃ s2, s.final = some (s2, sha1Spec msg) := by
  have hL := h.bufferLength_lt
  have e1 := h.state_eq
  have e2 := h.bitCount_eq
  have e4 := h.bufferLength_eq
  have e5 := h.pending_eq
  rw [SHA1.construct_pending, List.nil_append] at e1 e2 e4 e5
  obtain ⟨s2, p1, p2, -⟩ := s.padding_spec hL
  refine ⟨s2, ?_⟩
  unfold SHA1.final
  simp only [p1]
  rw [digestBytes_eq_serialize, p2, e1, ← List.foldl_append, e5, e4, e2]
  have hb : (((SHA1.construct uninit).bitCount + 512 * (msg.length / 64)) % 2 ^ 64
      + 8 * (msg.length % 64)) % 2 ^ 64 = (8 * msg.length) % 2 ^ 64 := by
    simp only [SHA1.construct]; omega
  rw [hb, ← blocks64_append_tail]
  have hz : padZeros (msg.length % 64) = padZeros msg.length := by
    simp only [padZeros, Nat.mod_mod]
  simp only [sha1Spec, foldBlocks, padMessage, padTail, hz, SHA1.construct, initialRegisters,
    List.append_assoc]

theorem sha1Chunks_eq_spec (uninit : Buffer) (chunks : List (List Byte)) :
    sha1Chunks uninit chunks = some (sha1Spec chunks.flatten) := by
  obtain ⟨s, h1, a1⟩ := SHA1.chunks_spec chunks (SHA1.construct uninit)
    (by simp [SHA1.construct]) (SHA1.construct_inRange uninit)
  obtain ⟨s2, h2⟩ := SHA1.final_of_absorbs uninit _ s a1
  simp only [sha1Chunks, h1, h2, Option.map_some']

theorem sha1Bytes_eq_spec (uninit : Buffer) (data : List Byte) :
    sha1Bytes uninit data = some (sha1Spec data) := by
  obtain ⟨s, h1, a1⟩ := (SHA1.construct uninit).initialization_spec data
    (by simp [SHA1.construct]) (SHA1.construct_inRange uninit)
  obtain ⟨s2, h2⟩ := SHA1.final_of_absorbs uninit _ s a1
  simp only [sha1Bytes, h1, h2, Option.map_some']

/-- When the length is a multiple of 64, the blocks are 64 bytes each and partition the
message. -/
theorem blocks64_partition (k : Nat) : ∀ (msg : List Byte), msg.length = 64 * k →
    (blocks64 msg).flatten = msg ∧ (blocks64 msg).length = k ∧
      ∀ blk ∈ blocks64 msg, blk.length = 64 := by
  induction k with
  | zero =>
    intro msg h
    have : msg = [] := List.length_eq_zero.mp (by omega)
    subst this
    simp [blocks64_short]
  | succ k ih =>
    intro msg h
    have h1 : msg = msg.take 64 ++ msg.drop 64 := (List.take_append_drop 64 msg).symm
    have h2 : (msg.take 64).length = 64 := by simp only [List.length_take]; omega
    have h3 : (msg.drop 64).length = 64 * k := by simp only [List.length_drop]; omega
    obtain ⟨i1, i2, i3⟩ := ih _ h3
    have hb : blocks64 msg = msg.take 64 :: blocks64 (msg.drop 64) := by
      conv_lhs => rw [h1]
      exact blocks64_cons _ _ h2
    rw [hb]
    refine ⟨?_, ?_, ?_⟩
    · rw [List.flatten_cons, i1, List.take_append_drop]
    · rw [List.length_cons, i2]
    · intro blk hblk
      rcases List.mem_cons.mp hblk with rfl | hm
      · exact h2
      · exact i3 blk hm

/-- Every register written by the compression function is a 32-bit value. -/
theorem compress_lt (r : Registers) (blk : List Byte) :
    (compress r blk).h0 < 2 ^ 32 ∧ (compress r blk).h1 < 2 ^ 32 ∧
    (compress r blk).h2 < 2 ^ 32 ∧ (compress r blk).h3 < 2 ^ 32 ∧
    (compress r blk).h4 < 2 ^ 32 := by
  have h : ∀ x : Nat, x % 2 ^ 32 < 2 ^ 32 := fun x => Nat.mod_lt x (by norm_num)
  exact ⟨h _, h _, h _, h _, h _⟩

/-! ## The rounds of `transform` -/

/-- On a 32-bit word the shift-and-or of `leftRotate` is a rotation. -/
theorem leftRotate_eq_rotl32 (x n : Nat) (hx : x < 2 ^ 32) (hn : n ≤ 32) :
    leftRotate x n = rotl32 x n := by
  have hpow : (2 : Nat) ^ 32 = 2 ^ n * 2 ^ (32 - n) := by
    rw [← Nat.pow_add]; congr 1; omega
  have hlo : x / 2 ^ (32 - n) < 2 ^ n := by
    apply Nat.div_lt_of_lt_mul
    rw [Nat.mul_comm, ← hpow]
    exact hx
  have hhi : (x * 2 ^ n) % 2 ^ 32 = 2 ^ n * (x % 2 ^ (32 - n)) := by
    rw [Nat.mul_comm x, hpow, Nat.mul_mod_mul_left]
  unfold leftRotate rotl32
  rw [Nat.shiftLeft_eq, Nat.shiftRight_eq_div_pow, hhi]
  exact (Nat.mul_add_lt_is_or hlo _).symm

theorem rotl32_lt (x n : Nat) (hx : x < 2 ^ 32) (hn : n ≤ 32) : rotl32 x n < 2 ^ 32 := by
  have hpow : (2 : Nat) ^ 32 = 2 ^ n * 2 ^ (32 - n) := by
    rw [← Nat.pow_add]; congr 1; omega
  have hlo : x / 2 ^ (32 - n) < 2 ^ n := by
    apply Nat.div_lt_of_lt_mul
    rw [Nat.mul_comm, ← hpow]
    exact hx
  have hhi : (x * 2 ^ n) % 2 ^ 32 = 2 ^ n * (x % 2 ^ (32 - n)) := by
    rw [Nat.mul_comm x, hpow, Nat.mul_mod_mul_left]
  have hm : x % 2 ^ (32 - n) < 2 ^ (32 - n) := Nat.mod_lt _ (Nat.pos_pow_of_pos _ (by norm_num))
  unfold rotl32
  rw [hhi, hpow]
  calc 2 ^ n * (x % 2 ^ (32 - n)) + x / 2 ^ (32 - n)
      < 2 ^ n * (x % 2 ^ (32 - n)) + 2 ^ n := by omega
    _ = 2 ^ n * (x % 2 ^ (32 - n) + 1) := by ring
    _ ≤ 2 ^ n * 2 ^ (32 - n) := Nat.mul_le_mul_left _ hm

/-- On a 32-bit word, exclusive or with `0xFFFFFFFF` is the complement. -/
theorem xor_ones_eq_not32 (b : Nat) (hb : b < 2 ^ 32) : b ^^^ 0xFFFFFFFF = not32 b := by
  have h1 := @BitVec.toNat_not 32 (BitVec.ofNat 32 b)
  rw [BitVec.not_def, BitVec.toNat_xor, BitVec.toNat_allOnes, BitVec.toNat_ofNat,
    Nat.mod_eq_of_lt hb] at h1
  rw [Nat.xor_comm]
  exact h1

theorem roundStep_eq_spec (w : List Nat) (v : Registers) (i : Nat) (hv : v.InRange) :
    roundStep w v i =
      { h0 := (rotl32 v.h0 5 + roundF i v.h1 v.h2 v.h3 + v.h4 + roundK i + w.getD i 0) % 2 ^ 32
        h1 := v.h0
        h2 := rotl32 v.h1 30
        h3 := v.h2
        h4 := v.h3 } := by
  obtain ⟨r0, r1, r2, r3, r4⟩ := hv
  unfold roundStep
  simp only [leftRotate_eq_rotl32 _ 5 r0 (by norm_num), leftRotate_eq_rotl32 _ 30 r1 (by norm_num),
    xor_ones_eq_not32 _ r1, roundF, roundK]
  by_cases h20 : i < 20
  · simp only [if_pos h20]
  · by_cases h40 : i < 40
    · simp only [if_neg h20, if_pos h40]
    · by_cases h60 : i < 60
      · simp only [if_neg h20, if_neg h40, if_pos h60]
      · simp only [if_neg h20, if_neg h40, if_neg h60]

theorem rounds_eq_spec (w : List Nat) (v : Registers) (hv : v.InRange) : ∀ n : Nat,
    (List.range n).foldl (roundStep w) v = roundsSpec (fun i => w.getD i 0) v n ∧
      (roundsSpec (fun i => w.getD i 0) v n).InRange := by
  intro n
  induction n with
  | zero => exact ⟨rfl, hv⟩
  | succ n ih =>
    obtain ⟨e, r⟩ := ih
    have hstep : (List.range (n + 1)).foldl (roundStep w) v
        = roundsSpec (fun i => w.getD i 0) v (n + 1) := by
      rw [List.range_succ, List.foldl_append, List.foldl_cons, List.foldl_nil, e,
        roundStep_eq_spec _ _ _ r]
      rfl
    refine ⟨hstep, ?_⟩
    obtain ⟨r0, r1, r2, r3, r4⟩ := r
    exact ⟨Nat.mod_lt _ (by norm_num), r0, rotl32_lt _ 30 r1 (by norm_num), r2, r3⟩

/-! ## Hexadecimal output -/

theorem hexField_eq : ∀ b : Byte, hexField b.val = [hexDigit (b.val / 16), hexDigit (b.val % 16)] := by
  decide!

theorem hexDigit_mem : ∀ b : Byte, hexDigit (b.val / 16) ∈ hexAlphabet ∧ hexDigit (b.val % 16) ∈ hexAlphabet := by
  decide!

theorem hexValue_hexDigit : ∀ b : Byte,
    16 * hexValue (hexDigit (b.val / 16)) + hexValue (hexDigit (b.val % 16)) = b.val := by
  decide!

/-- The two characters written for one byte. -/
theorem toHexLoop_eq : ∀ (bs : List Byte),
    toHexLoop bs bs.length =
      some ((bs.map fun b => [hexDigit (b.val / 16), hexDigit (b.val % 16)]).flatten) := by
  intro bs
  induction bs with
  | nil => rfl
  | cons b rest ih =>
    simp only [List.length_cons, toHexLoop, ih, hexField_eq, List.map_cons, List.flatten_cons]

theorem hexPairs_length (bs : List Byte) :
    ((bs.map fun b => [hexDigit (b.val / 16), hexDigit (b.val % 16)]).flatten).length
      = 2 * bs.length := by
  induction bs with
  | nil => rfl
  | cons b rest ih =>
    simp only [List.map_cons, List.flatten_cons, List.length_append, ih, List.length_cons,
      List.length_nil]
    omega

theorem hexPairs_getD (bs : List Byte) : ∀ (i : Nat) (h : i < bs.length),
    ((bs.map fun b => [hexDigit (b.val / 16), hexDigit (b.val % 16)]).flatten).getD (2 * i) ' '
      = hexDigit ((bs.get ⟨i, h⟩).val / 16) ∧
    ((bs.map fun b => [hexDigit (b.val / 16), hexDigit (b.val % 16)]).flatten).getD
      (2 * i + 1) ' ' = hexDigit ((bs.get ⟨i, h⟩).val % 16) := by
  induction bs with
  | nil => intro i h; simp at h
  | cons b rest ih =>
    intro i h
    cases i with
    | zero => simp
    | succ i =>
      have h2 : i < rest.length := by simpa using h
      have := ih i h2
      have e1 : 2 * (i + 1) = 2 * i + 1 + 1 := by omega
      have e2 : 2 * (i + 1) + 1 = 2 * i + 1 + 1 + 1 := by omega
      simp only [List.map_cons, List.flatten_cons, e1, e2, List.get_cons_succ]
      exact this

theorem hexPairs_mem (bs : List Byte) :
    ∀ c ∈ (bs.map fun b => [hexDigit (b.val / 16), hexDigit (b.val % 16)]).flatten,
      c ∈ hexAlphabet := by
  intro c hc
  simp only [List.mem_flatten, List.mem_map] at hc
  obtain ⟨l, ⟨b, -, rfl⟩, hcl⟩ := hc
  have := hexDigit_mem b
  simp only [List.mem_cons, List.mem_singleton, List.not_mem_nil, or_false] at hcl
  rcases hcl with rfl | rfl
  · exact this.1
  · exact this.2

theorem decodeHex_pairs (bs : List Byte) :
    decodeHex ((bs.map fun b => [hexDigit (b.val / 16), hexDigit (b.val % 16)]).flatten)
      = bs.map fun b => b.val := by
  induction bs with
  | nil => rfl
  | cons b rest ih =>
    have e : ((b :: rest).map fun b => [hexDigit (b.val / 16), hexDigit (b.val % 16)]).flatten
        = hexDigit (b.val / 16) :: hexDigit (b.val % 16) ::
          (rest.map fun b => [hexDigit (b.val / 16), hexDigit (b.val % 16)]).flatten := rfl
    rw [e, decodeHex, ih, hexValue_hexDigit, List.map_cons]

theorem SHA1.toHexString_eq (bs : List Byte) :
    SHA1.toHexString bs bs.length =
      some (String.mk
        ((bs.map fun b => [hexDigit (b.val / 16), hexDigit (b.val % 16)]).flatten)) := by
  simp only [SHA1.toHexString, toHexLoop_eq, Option.map_some']

/-! ## States that differ only in their counters -/

theorem Agree.transform {d : Nat} {s t : SHA1} (h : Agree d s t) (blk : Buffer) :
    Agree d (s.transform blk) (t.transform blk) := by
  obtain ⟨h1, h2, h3, h4, h5⟩ := h
  constructor
  · simp only [SHA1.transform, h1]
  · simp only [SHA1.transform, h2]
  · simp only [SHA1.transform, h3]
  · simp only [SHA1.transform, h4]
  · simp only [SHA1.transform]; omega

theorem Agree.initStep {d : Nat} {s t : SHA1} (h : Agree d s t) (data : List Byte) :
    (s.initStep data = none ∧ t.initStep data = none) ∨
    ∃ s2 t2 rest, s.initStep data = some (s2, rest) ∧ t.initStep data = some (t2, rest) ∧
      Agree d s2 t2 := by
  obtain ⟨h1, h2, h3, h4, h5⟩ := h
  unfold SHA1.initStep
  rw [← h2, ← h3]
  cases hc : s.buffer.copy s.bufferLength data
      (min data.length (subSizeT SHA1_BLOCK_SIZE s.bufferLength)) with
  | none => left; simp only [hc, and_self]
  | some buf =>
    right
    simp only [hc]
    by_cases hfull : (s.bufferLength + min data.length (subSizeT SHA1_BLOCK_SIZE s.bufferLength))
        % 2 ^ 64 = SHA1_BLOCK_SIZE
    · simp only [if_pos hfull]
      refine ⟨_, _, _, rfl, rfl, ?_⟩
      constructor
      · simp only [SHA1.transform, h1]
      · simp only [SHA1.transform]
      · simp only [SHA1.transform]
      · simp only [SHA1.transform]; omega
      · simp only [SHA1.transform]; omega
    · simp only [if_neg hfull]
      refine ⟨_, _, _, rfl, rfl, ?_⟩
      exact ⟨h1, rfl, rfl, h4, h5⟩

theorem Agree.initLoop {d : Nat} : ∀ (fuel : Nat) (s t : SHA1) (data : List Byte),
    Agree d s t →
    (SHA1.initLoop fuel s data = none ∧ SHA1.initLoop fuel t data = none) ∨
    ∃ s2 t2, SHA1.initLoop fuel s data = some s2 ∧ SHA1.initLoop fuel t data = some t2 ∧
      Agree d s2 t2 := by
  intro fuel
  induction fuel with
  | zero =>
    intro s t data h
    cases data with
    | nil => right; exact ⟨s, t, rfl, rfl, h⟩
    | cons b rest => left; exact ⟨rfl, rfl⟩
  | succ fuel ih =>
    intro s t data h
    cases data with
    | nil => right; exact ⟨s, t, rfl, rfl, h⟩
    | cons b rest =>
      rcases h.initStep (b :: rest) with ⟨e1, e2⟩ | ⟨s2, t2, r, e1, e2, h2⟩
      · left; simp only [SHA1.initLoop, e1, e2, and_self]
      · simp only [SHA1.initLoop, e1, e2]
        exact ih s2 t2 r h2

theorem Agree.initialization {d : Nat} {s t : SHA1} (h : Agree d s t) (data : List Byte) :
    (s.initialization data = none ∧ t.initialization data = none) ∨
    ∃ s2 t2, s.initialization data = some s2 ∧ t.initialization data = some t2 ∧
      Agree d s2 t2 :=
  Agree.initLoop _ s t data h

theorem Agree.padFlush {d : Nat} {s t : SHA1} (h : Agree d s t) (hb : s.bitCount = t.bitCount) :
    (s.padFlush = none ∧ t.padFlush = none) ∨
    ∃ s2 t2, s.padFlush = some s2 ∧ t.padFlush = some t2 ∧ Agree d s2 t2 ∧
      s2.bitCount = t2.bitCount := by
  obtain ⟨h1, h2, h3, h4, h5⟩ := h
  unfold SHA1.padFlush
  rw [← h2, ← h3]
  by_cases hgt : s.bufferLength > 56
  · simp only [if_pos hgt]
    cases hc : s.buffer.fill s.bufferLength 0 (subSizeT SHA1_BLOCK_SIZE s.bufferLength) with
    | none => left; simp only [and_self]
    | some buf =>
      right
      refine ⟨_, _, rfl, rfl, ?_, ?_⟩
      · constructor
        · simp only [SHA1.transform, h1]
        · simp only [SHA1.transform]
        · simp only [SHA1.transform]
        · simp only [SHA1.transform, h4]
        · simp only [SHA1.transform]; omega
      · simp only [SHA1.transform, hb]
  · simp only [if_neg hgt]
    right
    exact ⟨_, _, rfl, rfl, ⟨h1, h2, h3, h4, h5⟩, hb⟩

theorem Agree.padFinish {d : Nat} {s t : SHA1} (h : Agree d s t) (hb : s.bitCount = t.bitCount) :
    (s.padFinish = none ∧ t.padFinish = none) ∨
    ∃ s2 t2, s.padFinish = some s2 ∧ t.padFinish = some t2 ∧ Agree d s2 t2 := by
  obtain ⟨h1, h2, h3, h4, h5⟩ := h
  unfold SHA1.padFinish
  rw [← h2, ← h3, ← hb]
  cases hc : s.buffer.fill s.bufferLength 0 (subSizeT 56 s.bufferLength) with
  | none => left; simp only [and_self]
  | some buf =>
    simp only []
    cases hl : List.foldlM (lengthStep s.bitCount) buf (List.range 8) with
    | none => left; simp only [and_self]
    | some buf3 =>
      right
      refine ⟨_, _, rfl, rfl, ?_⟩
      constructor
      · simp only [SHA1.transform, h1]
      · simp only [SHA1.transform, h2]
      · simp only [SHA1.transform]
      · simp only [SHA1.transform, h4]
      · simp only [SHA1.transform]; omega

theorem Agree.padding {d : Nat} {s t : SHA1} (h : Agree d s t) :
    (s.padding = none ∧ t.padding = none) ∨
    ∃ s2 t2, s.padding = some s2 ∧ t.padding = some t2 ∧ Agree d s2 t2 := by
  obtain ⟨h1, h2, h3, h4, h5⟩ := h
  have hbits : (s.bitCount + s.bufferLength * 8 % 2 ^ 64) % 2 ^ 64
      = (t.bitCount + s.bufferLength * 8 % 2 ^ 64) % 2 ^ 64 := by omega
  unfold SHA1.padding
  rw [← h2, ← h3, ← hbits]
  cases hc : s.buffer.store s.bufferLength 0x80 with
  | none => left; simp only [and_self]
  | some buf =>
    simp only []
    have ha : Agree d
        ({ s with bitCount := (s.bitCount + s.bufferLength * 8 % 2 ^ 64) % 2 ^ 64,
                  buffer := buf, bufferLength := (s.bufferLength + 1) % 2 ^ 64 } : SHA1)
        ({ t with bitCount := (s.bitCount + s.bufferLength * 8 % 2 ^ 64) % 2 ^ 64,
                  buffer := buf, bufferLength := (s.bufferLength + 1) % 2 ^ 64 } : SHA1) :=
      ⟨h1, rfl, rfl, rfl, h5⟩
    rcases ha.padFlush rfl with ⟨e1, e2⟩ | ⟨s2, t2, e1, e2, h2, hb2⟩
    · left; simp only [e1, e2, and_self]
    · simp only [e1, e2]
      exact h2.padFinish hb2

theorem Agree.final {d : Nat} {s t : SHA1} (h : Agree d s t) :
    (s.final = none ∧ t.final = none) ∨
    ∃ s2 t2 digest, s.final = some (s2, digest) ∧ t.final = some (t2, digest) ∧
      Agree d s2 t2 := by
  unfold SHA1.final
  rcases h.padding with ⟨e1, e2⟩ | ⟨s2, t2, e1, e2, h2⟩
  · left; simp only [e1, e2, and_self]
  · right
    refine ⟨s2, t2, digestBytes s2.state, ?_, ?_, h2⟩
    · simp only [e1]
    · simp only [e2, h2.state_eq]

theorem Agree.absorbFinal {d : Nat} {s t : SHA1} (h : Agree d s t) (data : List Byte) :
    s.absorbFinal data = t.absorbFinal data := by
  unfold SHA1.absorbFinal
  rcases h.initialization data with ⟨e1, e2⟩ | ⟨s2, t2, e1, e2, h2⟩
  · simp only [e1, e2]
  · simp only [e1, e2]
    rcases h2.final with ⟨f1, f2⟩ | ⟨s3, t3, dg, f1, f2, -⟩
    · simp only [f1, f2]
    · simp only [f1, f2, Option.map_some']

/-- States that agree on everything but the block counter are in agreement. -/
theorem Agree.of_fields (s t : SHA1) (h1 : s.state = t.state) (h2 : s.bitCount = t.bitCount)
    (h3 : s.bufferLength = t.bufferLength) (h4 : s.buffer = t.buffer) :
    Agree (s.block_number + (2 ^ 64 - t.block_number % 2 ^ 64)) s t := by
  refine ⟨h1, h3, h4, by rw [h2], ?_⟩
  omega

/-! ## The loop of `initialization` from any state within the staging bound -/

/-- One pass per byte is enough when the staging bound holds at the start. -/
theorem SHA1.initLoop_spec_le : ∀ (fuel : Nat) (s : SHA1) (data : List Byte),
    data.length ≤ fuel → s.bufferLength < 64 → s.InRange →
    ∃ s2, SHA1.initLoop fuel s data = some s2 ∧ Absorbs s data s2 := by
  intro fuel
  induction fuel with
  | zero =>
    intro s data h hL hr
    have : data = [] := List.length_eq_zero.mp (by omega)
    subst this
    exact ⟨s, by simp [SHA1.initLoop], Absorbs.refl s hL hr⟩
  | succ fuel ih =>
    intro s data hf hL hr
    cases data with
    | nil => exact ⟨s, by simp [SHA1.initLoop], Absorbs.refl s hL hr⟩
    | cons b rest =>
      obtain ⟨s1, h1, a1⟩ := s.initStep_spec (b :: rest) hL hr (by simp)
      have hlen : ((b :: rest).drop (min (b :: rest).length (64 - s.bufferLength))).length
          ≤ fuel := by
        simp only [List.length_drop, List.length_cons] at hf ⊢
        omega
      obtain ⟨s2, h2, a2⟩ := ih s1 _ hlen a1.bufferLength_lt a1.inRange
      refine ⟨s2, ?_, ?_⟩
      · simp only [SHA1.initLoop, h1, h2]
      · have := a1.trans a2
        rwa [List.take_append_drop] at this

/-- A result of the loop does not change when the budget grows. -/
theorem SHA1.initLoop_fuel_mono : ∀ (fuel : Nat) (s r : SHA1) (data : List Byte) (k : Nat),
    SHA1.initLoop fuel s data = some r → SHA1.initLoop (fuel + k) s data = some r := by
  intro fuel
  induction fuel with
  | zero =>
    intro s r data k h
    cases data with
    | nil =>
      cases k with
      | zero => exact h
      | succ k => simpa [SHA1.initLoop] using h
    | cons b rest => simp [SHA1.initLoop] at h
  | succ fuel ih =>
    intro s r data k h
    cases data with
    | nil => simpa [SHA1.initLoop] using h
    | cons b rest =>
      have e : fuel + 1 + k = (fuel + k) + 1 := by omega
      rw [e]
      simp only [SHA1.initLoop] at h ⊢
      cases hs : s.initStep (b :: rest) with
      | none => simp only [hs] at h; exact absurd h (by simp)
      | some p =>
        obtain ⟨s2, rest2⟩ := p
        simp only [hs] at h ⊢
        exact ih s2 r rest2 k h

theorem SHA1.normalize_agree (s : SHA1) : Agree 0 s s.normalize := by
  constructor
  · rfl
  · rfl
  · rfl
  · simp only [SHA1.normalize, Nat.mod_mod]
  · simp only [SHA1.normalize, Nat.add_zero, Nat.mod_mod]

theorem SHA1.normalize_inRange (s : SHA1) : s.normalize.InRange :=
  ⟨Nat.mod_lt _ (by norm_num), Nat.mod_lt _ (by norm_num)⟩

theorem SHA1.normalize_pending (s : SHA1) : s.normalize.pending = s.pending := rfl

/-- From any state within the staging bound the loop returns, with any budget of at
least one pass per byte; the result agrees with what the state with reduced counters
becomes by absorbing `data`. -/
theorem SHA1.initLoop_total (fuel : Nat) (s : SHA1) (data : List Byte)
    (hf : data.length ≤ fuel) (hL : s.bufferLength < 64) :
    ∃ s2 t2, SHA1.initLoop fuel s data = some s2 ∧ Absorbs s.normalize data t2 ∧
      Agree 0 s2 t2 := by
  obtain ⟨t2, e2, a2⟩ := SHA1.initLoop_spec_le fuel s.normalize data hf hL s.normalize_inRange
  rcases Agree.initLoop fuel s s.normalize data s.normalize_agree with
    ⟨-, e⟩ | ⟨s2, t2', e1, e2', h⟩
  · rw [e2] at e; exact absurd e (by simp)
  · rw [e2] at e2'
    cases e2'
    exact ⟨s2, t2, e1, a2, h⟩

/-- One pass of the loop from a state within the staging bound, on a non-empty input:
it returns, copies `min length (64 - bufferLength)` bytes and keeps the bound. -/
theorem SHA1.initStep_pass (s : SHA1) (data : List Byte) (hL : s.bufferLength < 64)
    (hd : data ≠ []) :
    ∃ s2, s.initStep data = some (s2, data.drop (min data.length (64 - s.bufferLength))) ∧
      s2.bufferLength < 64 := by
  obtain ⟨t2, e, a⟩ := s.normalize.initStep_spec data hL s.normalize_inRange hd
  rcases s.normalize_agree.initStep data with ⟨-, e2⟩ | ⟨s2, t2b, rest, e1, e2, g⟩
  · rw [e] at e2; exact absurd e2 (by simp)
  · rw [e] at e2
    simp only [Option.some.injEq, Prod.mk.injEq] at e2
    obtain ⟨e3, e4⟩ := e2
    refine ⟨s2, ?_, ?_⟩
    · rw [e1, ← e4]; rfl
    · rw [g.bufferLength_eq, ← e3]
      exact a.bufferLength_lt

/-! ## Counting blocks -/

theorem blocks64_length (msg : List Byte) : (blocks64 msg).length = msg.length / 64 := by
  obtain ⟨a, r, hm, ha, hr, -⟩ := split64 msg
  have h1 : blocks64 msg = blocks64 a := by
    conv_lhs => rw [hm]
    rw [blocks64_append _ a r ha, blocks64_short r (by omega), List.append_nil]
  rw [h1]
  exact (blocks64_partition _ a ha).2.1

theorem padTail_length (n bits : Nat) : (padTail n bits).length = 1 + padZeros n + 8 := by
  simp only [padTail, List.length_append, List.length_replicate, List.length_singleton,
    be64_length]

theorem SHA1.initStep_block_number_lt (s s2 : SHA1) (data rest : List Byte)
    (h : s.initStep data = some (s2, rest)) (hb : s.block_number < 2 ^ 64) :
    s2.block_number < 2 ^ 64 := by
  unfold SHA1.initStep at h
  cases hc : s.buffer.copy s.bufferLength data
      (min data.length (subSizeT SHA1_BLOCK_SIZE s.bufferLength)) with
  | none => simp only [hc] at h; exact absurd h (by simp)
  | some buf =>
    simp only [hc, Option.some.injEq, Prod.mk.injEq] at h
    obtain ⟨h1, -⟩ := h
    rw [← h1]
    split
    · simp only [SHA1.transform]
      exact Nat.mod_lt _ (by norm_num)
    · exact hb

theorem SHA1.initLoop_block_number_lt : ∀ (fuel : Nat) (s r : SHA1) (data : List Byte),
    SHA1.initLoop fuel s data = some r → s.block_number < 2 ^ 64 →
    r.block_number < 2 ^ 64 := by
  intro fuel
  induction fuel with
  | zero =>
    intro s r data h hb
    cases data with
    | nil =>
      simp only [SHA1.initLoop, Option.some.injEq] at h
      rw [← h]; exact hb
    | cons b rest => simp [SHA1.initLoop] at h
  | succ fuel ih =>
    intro s r data h hb
    cases data with
    | nil =>
      simp only [SHA1.initLoop, Option.some.injEq] at h
      rw [← h]; exact hb
    | cons b rest =>
      simp only [SHA1.initLoop] at h
      cases hs : s.initStep (b :: rest) with
      | none => simp only [hs] at h; exact absurd h (by simp)
      | some p =>
        obtain ⟨s2, rest2⟩ := p
        simp only [hs] at h
        exact ih s2 r rest2 h (s.initStep_block_number_lt s2 _ _ hs hb)

/-- From any state within the staging bound: what `initialization` returns, without any
assumption on the counters. -/
theorem SHA1.initialization_total (s : SHA1) (data : List Byte) (hL : s.bufferLength < 64) :
    ∃ s2, s.initialization data = some s2 ∧
      s2.state = (blocks64 (s.pending ++ data)).foldl compress s.state ∧
      (blocks64 (s.pending ++ data)).length = (s.bufferLength + data.length) / 64 ∧
      s2.bufferLength = (s.bufferLength + data.length) % 64 ∧
      s2.pending = (s.pending ++ data).drop (64 * ((s.bufferLength + data.length) / 64)) ∧
      s2.bitCount % 2 ^ 64 =
        (s.bitCount + 512 * ((s.bufferLength + data.length) / 64)) % 2 ^ 64 ∧
      s2.block_number % 2 ^ 64 =
        (s.block_number + (s.bufferLength + data.length) / 64) % 2 ^ 64 := by
  obtain ⟨s2, t2, e, a, g⟩ :=
    SHA1.initLoop_total (data.length + 1) s data (Nat.le_succ _) hL
  have hp := s.pending_length (by omega)
  have hlen : (s.pending ++ data).length = s.bufferLength + data.length := by
    rw [List.length_append, hp]
  have a1 := a.state_eq
  have a2 := a.bitCount_eq
  have a3 := a.block_number_eq
  have a4 := a.bufferLength_eq
  have a5 := a.pending_eq
  rw [s.normalize_pending] at a1 a2 a3 a4 a5
  rw [hlen] at a2 a3 a4 a5
  refine ⟨s2, e, ?_, ?_, ?_, ?_, ?_, ?_⟩
  · rw [g.state_eq, a1]; rfl
  · rw [blocks64_length, hlen]
  · rw [g.bufferLength_eq, a4]
  · have : s2.pending = t2.pending := by
      simp only [SHA1.pending, g.bufferLength_eq, g.buffer_eq]
    rw [this, a5]
  · rw [g.bitCount_mod, a2]
    simp only [SHA1.normalize]
    omega
  · rw [g.block_number_mod, a3]
    simp only [SHA1.normalize]
    omega

/-! ## The message schedule -/

theorem getD_set_self {α : Type} (l : List α) (i : Nat) (v d : α) (h : i < l.length) :
    (l.set i v).getD i d = v := by
  rw [List.getD_eq_getElem?_getD, List.getElem?_set_self h]
  rfl

theorem getD_set_ne {α : Type} (l : List α) (i j : Nat) (v d : α) (h : i ≠ j) :
    (l.set i v).getD j d = l.getD j d := by
  rw [List.getD_eq_getElem?_getD, List.getElem?_set_ne h, List.getD_eq_getElem?_getD]

/-- The shift-and-or of four bytes is their big-endian value. -/
theorem bytes_or_eq_sum (a b c d : Nat) (ha : a < 256) (hb : b < 256) (hc : c < 256)
    (hd : d < 256) :
    ((a <<< 24) ||| (b <<< 16) ||| (c <<< 8) ||| d) % 2 ^ 32
      = a * 2 ^ 24 + b * 2 ^ 16 + c * 2 ^ 8 + d := by
  simp only [Nat.shiftLeft_eq]
  have h1 : a * 2 ^ 24 ||| b * 2 ^ 16 = 2 ^ 24 * a + b * 2 ^ 16 := by
    rw [Nat.mul_comm a]
    exact (Nat.mul_add_lt_is_or (by omega) a).symm
  have h2 : 2 ^ 24 * a + b * 2 ^ 16 ||| c * 2 ^ 8 = 2 ^ 16 * (2 ^ 8 * a + b) + c * 2 ^ 8 := by
    have e : 2 ^ 24 * a + b * 2 ^ 16 = 2 ^ 16 * (2 ^ 8 * a + b) := by omega
    rw [e]
    exact (Nat.mul_add_lt_is_or (by omega) _).symm
  have h3 : 2 ^ 16 * (2 ^ 8 * a + b) + c * 2 ^ 8 ||| d
      = 2 ^ 8 * (2 ^ 16 * a + 2 ^ 8 * b + c) + d := by
    have e : 2 ^ 16 * (2 ^ 8 * a + b) + c * 2 ^ 8 = 2 ^ 8 * (2 ^ 16 * a + 2 ^ 8 * b + c) := by
      omega
    rw [e]
    exact (Nat.mul_add_lt_is_or (by omega) _).symm
  rw [h1, h2, h3]
  omega

theorem parseWord_eq (block : List Byte) (i : Nat) :
    parseWord block i =
      (block.getD (4 * i) 0).val * 2 ^ 24 + (block.getD (4 * i + 1) 0).val * 2 ^ 16 +
        (block.getD (4 * i + 2) 0).val * 2 ^ 8 + (block.getD (4 * i + 3) 0).val := by
  unfold parseWord
  rw [Nat.mul_comm i 4]
  exact bytes_or_eq_sum _ _ _ _ (Fin.isLt _) (Fin.isLt _) (Fin.isLt _) (Fin.isLt _)

theorem parseWord_lt (block : List Byte) (i : Nat) : parseWord block i < 2 ^ 32 :=
  Nat.mod_lt _ (by norm_num)

/-- The first schedule loop after `k` passes. -/
theorem parse_loop (block : List Byte) : ∀ k, k ≤ 80 →
    ((List.range k).foldl (parseStep block) (List.replicate 80 0)).length = 80 ∧
    ∀ i, i < k →
      ((List.range k).foldl (parseStep block) (List.replicate 80 0)).getD i 0
        = parseWord block i := by
  intro k
  induction k with
  | zero =>
    intro _
    exact ⟨by simp, fun i hi => absurd hi (Nat.not_lt_zero i)⟩
  | succ k ih =>
    intro hk
    obtain ⟨hlen, hval⟩ := ih (by omega)
    rw [List.range_succ, List.foldl_append, List.foldl_cons, List.foldl_nil]
    generalize (List.range k).foldl (parseStep block) (List.replicate 80 0) = w at hlen hval
    unfold parseStep
    refine ⟨by rw [List.length_set]; exact hlen, ?_⟩
    intro i hi
    by_cases hik : i = k
    · subst hik
      exact getD_set_self _ _ _ _ (by omega)
    · rw [getD_set_ne _ _ _ _ _ (Ne.symm hik)]
      exact hval i (by omega)

theorem leftRotate_lt (x n : Nat) (hx : x < 2 ^ 32) (hn : n ≤ 32) :
    leftRotate x n < 2 ^ 32 := by
  rw [leftRotate_eq_rotl32 x n hx hn]
  exact rotl32_lt x n hx hn

/-- The expansion loop after `k` passes, started on an array whose first 16 words are
32-bit values. -/
theorem expand_loop (w0 : List Nat) (h0 : w0.length = 80)
    (hlt0 : ∀ i, i < 16 → w0.getD i 0 < 2 ^ 32) : ∀ k, k ≤ 64 →
    ((List.range' 16 k).foldl expandStep w0).length = 80 ∧
    (∀ i, i < 16 → ((List.range' 16 k).foldl expandStep w0).getD i 0 = w0.getD i 0) ∧
    (∀ i, i < 16 + k → ((List.range' 16 k).foldl expandStep w0).getD i 0 < 2 ^ 32) ∧
    (∀ i, 16 ≤ i → i < 16 + k →
      ((List.range' 16 k).foldl expandStep w0).getD i 0 =
        leftRotate
          (((List.range' 16 k).foldl expandStep w0).getD (i - 3) 0 ^^^
            ((List.range' 16 k).foldl expandStep w0).getD (i - 8) 0 ^^^
            ((List.range' 16 k).foldl expandStep w0).getD (i - 14) 0 ^^^
            ((List.range' 16 k).foldl expandStep w0).getD (i - 16) 0) 1) := by
  intro k
  induction k with
  | zero =>
    intro _
    refine ⟨h0, fun i _ => rfl, fun i hi => hlt0 i (by omega), fun i h1 h2 => by omega⟩
  | succ k ih =>
    intro hk
    obtain ⟨hlen, hfirst, hlt, hrec⟩ := ih (by omega)
    rw [List.range'_concat, List.foldl_append, List.foldl_cons, List.foldl_nil, Nat.one_mul]
    generalize (List.range' 16 k).foldl expandStep w0 = w at hlen hfirst hlt hrec
    have hkeep : ∀ j, j < 16 + k → (expandStep w (16 + k)).getD j 0 = w.getD j 0 := by
      intro j hj
      unfold expandStep
      exact getD_set_ne _ _ _ _ _ (by omega)
    have hnew : (expandStep w (16 + k)).getD (16 + k) 0 =
        leftRotate (w.getD (16 + k - 3) 0 ^^^ w.getD (16 + k - 8) 0 ^^^
          w.getD (16 + k - 14) 0 ^^^ w.getD (16 + k - 16) 0) 1 := by
      unfold expandStep
      exact getD_set_self _ _ _ _ (by omega)
    refine ⟨by unfold expandStep; rw [List.length_set]; exact hlen, ?_, ?_, ?_⟩
    · intro i hi
      rw [hkeep i (by omega)]
      exact hfirst i hi
    · intro i hi
      by_cases hik : i = 16 + k
      · subst hik
        rw [hnew]
        apply leftRotate_lt _ 1 _ (by norm_num)
        exact Nat.xor_lt_two_pow (Nat.xor_lt_two_pow (Nat.xor_lt_two_pow
          (hlt _ (by omega)) (hlt _ (by omega))) (hlt _ (by omega))) (hlt _ (by omega))
      · rw [hkeep i (by omega)]
        exact hlt i (by omega)
    · intro i h1 h2
      by_cases hik : i = 16 + k
      · subst hik
        rw [hnew, hkeep _ (by omega), hkeep _ (by omega), hkeep _ (by omega),
          hkeep _ (by omega)]
      · rw [hkeep i (by omega), hkeep _ (by omega), hkeep _ (by omega), hkeep _ (by omega),
          hkeep _ (by omega)]
        exact hrec i h1 (by omega)

/-- The schedule: 80 words of 32 bits, the first 16 parsed from the block, the others
given by the recurrence. -/
theorem schedule_spec (block : List Byte) :
    (schedule block).length = 80 ∧
    (∀ i, i < 16 → (schedule block).getD i 0 = parseWord block i) ∧
    (∀ i, i < 80 → (schedule block).getD i 0 < 2 ^ 32) ∧
    (∀ i, 16 ≤ i → i < 80 →
      (schedule block).getD i 0 =
        leftRotate ((schedule block).getD (i - 3) 0 ^^^ (schedule block).getD (i - 8) 0 ^^^
          (schedule block).getD (i - 14) 0 ^^^ (schedule block).getD (i - 16) 0) 1) := by
  obtain ⟨plen, pval⟩ := parse_loop block 16 (by norm_num)
  have plt : ∀ i, i < 16 →
      ((List.range 16).foldl (parseStep block) (List.replicate 80 0)).getD i 0 < 2 ^ 32 := by
    intro i hi
    rw [pval i hi]
    exact parseWord_lt block i
  obtain ⟨elen, efirst, elt, erec⟩ := expand_loop _ plen plt 64 (Nat.le_refl _)
  refine ⟨elen, ?_, ?_, ?_⟩
  · intro i hi
    have := efirst i hi
    rw [pval i hi] at this
    exact this
  · intro i hi
    exact elt i (by omega)
  · intro i h1 h2
    exact erec i h1 (by omega)

/-! ## The checked compression function -/

/-- A checked loop whose passes all succeed computes what the unchecked loop computes. -/
theorem foldlM_checked {α β : Type} (P : β → Prop) (fc : β → α → Option β) (f : β → α → β) :
    ∀ (l : List α) (init : β), P init →
    (∀ b a, a ∈ l → P b → fc b a = some (f b a) ∧ P (f b a)) →
    l.foldlM fc init = some (l.foldl f init) ∧ P (l.foldl f init) := by
  intro l
  induction l with
  | nil => intro init h _; exact ⟨rfl, h⟩
  | cons a rest ih =>
    intro init h hstep
    obtain ⟨e, hp⟩ := hstep init a (List.mem_cons_self _ _) h
    rw [List.foldlM_cons, e, List.foldl_cons]
    exact ih (f init a) hp (fun b x hx hb => hstep b x (List.mem_cons_of_mem _ hx) hb)

theorem scheduleChecked_eq (block : List Byte) (h : block.length = 64) :
    scheduleChecked block = some (schedule block) := by
  have h1 := foldlM_checked (fun w : List Nat => w.length = 80) (parseStepChecked block)
    (parseStep block) (List.range 16) (List.replicate 80 0) (by simp) (by
      intro w i hi hw
      have hi16 : i < 16 := List.mem_range.mp hi
      constructor
      · unfold parseStepChecked
        rw [if_pos]
        unfold parseStepInBounds
        omega
      · show (parseStep block w i).length = 80
        unfold parseStep
        rw [List.length_set]; exact hw)
  have h2 := foldlM_checked (fun w : List Nat => w.length = 80) expandStepChecked
    expandStep (List.range' 16 64)
    ((List.range 16).foldl (parseStep block) (List.replicate 80 0)) h1.2 (by
      intro w i hi hw
      have hi' := List.mem_range'_1.mp hi
      constructor
      · unfold expandStepChecked
        rw [if_pos]
        unfold expandStepInBounds rotationCountOk
        omega
      · show (expandStep w i).length = 80
        unfold expandStep
        rw [List.length_set]; exact hw)
  unfold scheduleChecked
  rw [h1.1]
  exact h2.1

theorem compressChecked_eq (regs : Registers) (block : List Byte) (h : block.length = 64) :
    compressChecked regs block = some (compress regs block) := by
  have hlen := (schedule_spec block).1
  have h1 := foldlM_checked (fun _ : Registers => True) (roundStepChecked (schedule block))
    (roundStep (schedule block)) (List.range 80) regs trivial (by
      intro v i hi _
      have hi80 : i < 80 := List.mem_range.mp hi
      refine ⟨?_, trivial⟩
      unfold roundStepChecked
      rw [if_pos]
      unfold roundStepInBounds rotationCountOk
      omega)
  unfold compressChecked
  rw [scheduleChecked_eq block h]
  simp only [h1.1, compress]

theorem SHA1.transformChecked_eq (s : SHA1) (block : Buffer) :
    s.transformChecked block = some (s.transform block) := by
  unfold SHA1.transformChecked
  rw [compressChecked_eq s.state block.bytes block.size_eq]
  simp only [SHA1.transform]

/-! ## The three parts of `padding` -/

theorem SHA1.padding_eq_steps (s : SHA1) :
    s.padding =
      match s.padStart with
      | none => none
      | some s1 =>
        match s1.padFlush with
        | none => none
        | some s2 => s2.padFinish := by
  unfold SHA1.padding SHA1.padStart
  cases hc : s.buffer.store s.bufferLength 0x80 with
  | none => simp only []
  | some buf => simp only []

/-- Under the staging bound the three parts of `padding` return, and none of the two
zero-fill lengths wraps. -/
theorem SHA1.padding_steps (s : SHA1) (hL : s.bufferLength < 64) :
    ∃ s1 s2 s3, s.padStart = some s1 ∧ s1.padFlush = some s2 ∧ s2.padFinish = some s3 ∧
      s.padding = some s3 ∧
      s1.bufferLength = s.bufferLength + 1 ∧
      (56 < s1.bufferLength →
        s1.bufferLength ≤ 64 ∧
        subSizeT SHA1_BLOCK_SIZE s1.bufferLength = 64 - s1.bufferLength) ∧
      s2.bufferLength ≤ 56 ∧
      subSizeT 56 s2.bufferLength = 56 - s2.bufferLength ∧
      s3.bufferLength ≤ 56 := by
  have hmod : (s.bufferLength + 1) % 2 ^ 64 = s.bufferLength + 1 :=
    Nat.mod_eq_of_lt (by omega)
  have hstart : ∃ s1, s.padStart = some s1 ∧ s1.bufferLength = s.bufferLength + 1 := by
    unfold SHA1.padStart
    simp only [Buffer.store, if_pos hL]
    exact ⟨_, rfl, hmod⟩
  obtain ⟨s1, e1, l1⟩ := hstart
  have hflush : ∃ s2, s1.padFlush = some s2 ∧ s2.bufferLength ≤ 56 := by
    by_cases h56 : 56 < s1.bufferLength
    · obtain ⟨s2, f1, -, -, -, f5⟩ := s1.padFlush_gt h56 (by omega)
      exact ⟨s2, f1, by omega⟩
    · exact ⟨s1, s1.padFlush_le (by omega), by omega⟩
  obtain ⟨s2, e2, l2⟩ := hflush
  obtain ⟨s3, e3, -, -, -, l3, -⟩ := s2.padFinish_spec l2
  refine ⟨s1, s2, s3, e1, e2, e3, ?_, l1, ?_, l2, ?_, by omega⟩
  · rw [s.padding_eq_steps]
    simp only [e1, e2, e3]
  · intro h56
    exact ⟨by omega, subSizeT_of_le 64 _ (by omega) (by norm_num)⟩
  · exact subSizeT_of_le 56 _ l2 (by norm_num)

/-! ## What it means for a buffer operation to return -/

theorem Buffer.copy_isSome (b : Buffer) (off : Nat) (src : List Byte) (count : Nat) :
    (b.copy off src count).isSome ↔ off + count ≤ 64 ∧ count ≤ src.length := by
  unfold Buffer.copy
  split <;> simp_all

theorem Buffer.fill_isSome (b : Buffer) (off : Nat) (value : Byte) (count : Nat) :
    (b.fill off value count).isSome ↔ off + count ≤ 64 := by
  unfold Buffer.fill
  split <;> simp_all

theorem Buffer.store_isSome (b : Buffer) (i : Nat) (value : Byte) :
    (b.store i value).isSome ↔ i < 64 := by
  unfold Buffer.store
  split <;> simp_all

/-! ## The properties -/

/-- C5: for every state whose registers `(h0..h4)` are 32-bit values and every 64-byte
block, `transform` replaces the registers by `(h0+a, h1+b, h2+c, h3+d, h4+e) mod 2^32`,
where `(a, b, c, d, e)` is reached from `(h0..h4)` by the 80 rounds
`temp = rotl(a,5) + f + e + k + w[i] (mod 2^32); e=d; d=c; c=rotl(b,30); b=a; a=temp`,
taken for `i = 0..79` in order, with `f` and `k` chosen by the range of `i`
(`roundF`, `roundK`) and `w` the schedule of the block. -/
theorem C5_transform_is_eighty_rounds (s : SHA1) (block : Buffer) (h : s.state.InRange) :
    block.bytes.length = 64 ∧
    (s.transform block).state =
      { h0 := (s.state.h0 +
          (roundsSpec (fun i => (schedule block.bytes).getD i 0) s.state 80).h0) % 2 ^ 32
        h1 := (s.state.h1 +
          (roundsSpec (fun i => (schedule block.bytes).getD i 0) s.state 80).h1) % 2 ^ 32
        h2 := (s.state.h2 +
          (roundsSpec (fun i => (schedule block.bytes).getD i 0) s.state 80).h2) % 2 ^ 32
        h3 := (s.state.h3 +
          (roundsSpec (fun i => (schedule block.bytes).getD i 0) s.state 80).h3) % 2 ^ 32
        h4 := (s.state.h4 +
          (roundsSpec (fun i => (schedule block.bytes).getD i 0) s.state 80).h4) % 2 ^ 32 } := by
  refine ⟨block.size_eq, ?_⟩
  have e := (rounds_eq_spec (schedule block.bytes) s.state h 80).1
  simp only [SHA1.transform, compress, e]

/-- C5 at the freshly constructed state and the all-zero block. -/
theorem C5_transform_is_eighty_rounds_witness :
    (SHA1.construct zeroBuffer).state.InRange ∧
    zeroBuffer.bytes.length = 64 ∧
    ((SHA1.construct zeroBuffer).transform zeroBuffer).state =
      { h0 := ((SHA1.construct zeroBuffer).state.h0 +
          (roundsSpec (fun i => (schedule zeroBuffer.bytes).getD i 0)
            (SHA1.construct zeroBuffer).state 80).h0) % 2 ^ 32
        h1 := ((SHA1.construct zeroBuffer).state.h1 +
          (roundsSpec (fun i => (schedule zeroBuffer.bytes).getD i 0)
            (SHA1.construct zeroBuffer).state 80).h1) % 2 ^ 32
        h2 := ((SHA1.construct zeroBuffer).state.h2 +
          (roundsSpec (fun i => (schedule zeroBuffer.bytes).getD i 0)
            (SHA1.construct zeroBuffer).state 80).h2) % 2 ^ 32
        h3 := ((SHA1.construct zeroBuffer).state.h3 +
          (roundsSpec (fun i => (schedule zeroBuffer.bytes).getD i 0)
            (SHA1.construct zeroBuffer).state 80).h3) % 2 ^ 32
        h4 := ((SHA1.construct zeroBuffer).state.h4 +
          (roundsSpec (fun i => (schedule zeroBuffer.bytes).getD i 0)
            (SHA1.construct zeroBuffer).state 80).h4) % 2 ^ 32 } :=
  ⟨by simp [Registers.InRange, SHA1.construct],
    C5_transform_is_eighty_rounds (SHA1.construct zeroBuffer) zeroBuffer
      (by simp [Registers.InRange, SHA1.construct])⟩

/-- C1: for every byte sequence `X` of length `n` (and whatever the uninitialised buffer
holds), construction, one `initialization` call on `X` and `final` return the big-endian
serialisation of the registers obtained by folding the compression function, from the
initial constants, over the consecutive 64-byte blocks of
`X ++ [0x80] ++ k zero bytes ++ (8 * n mod 2 ^ 64 as eight big-endian bytes)`, where
`k = padZeros n` is the least number making the padded length a multiple of 64. -/
theorem C1_digest_is_fold_over_padded_message (uninit : Buffer) (X : List Byte) :
    (64 ∣ X.length + 1 + padZeros X.length + 8 ∧
      ∀ k, k < padZeros X.length → ¬ 64 ∣ X.length + 1 + k + 8) ∧
    (be64 ((8 * X.length) % 2 ^ 64)).length = 8 ∧
    beValue (be64 ((8 * X.length) % 2 ^ 64)) = (8 * X.length) % 2 ^ 64 ∧
    ((blocks64 (padMessage X)).flatten = padMessage X ∧
      ∀ blk ∈ blocks64 (padMessage X), blk.length = 64) ∧
    initialRegisters = ⟨0x67452301, 0xEFCDAB89, 0x98BADCFE, 0x10325476, 0xC3D2E1F0⟩ ∧
    (∀ r, (serialize r).length = 20) ∧
    sha1Bytes uninit X =
      some (serialize ((blocks64 (X ++ [(0x80 : Byte)] ++
        List.replicate (padZeros X.length) 0 ++ be64 ((8 * X.length) % 2 ^ 64))).foldl
          compress initialRegisters)) := by
  have hz := padZeros_spec X.length
  obtain ⟨q, hq⟩ := hz.1
  have hp := blocks64_partition q (padMessage X) (by rw [padMessage_length, hq])
  exact ⟨hz, be64_length _, be64_value _ (Nat.mod_lt _ (by norm_num)), ⟨hp.1, hp.2.2⟩, rfl,
    serialize_length, sha1Bytes_eq_spec uninit X⟩

/-- C2: streaming equivalence.  For every sequence of chunks (empty chunks and an empty
sequence included), feeding the chunks to a fresh state by successive `initialization`
calls and calling `final` gives a 20-byte digest, the same one as a single
`initialization` call on the concatenation of the chunks, on a fresh state, followed by
`final`. -/
theorem C2_streaming_equivalence (u1 u2 : Buffer) (chunks : List (List Byte)) :
    sha1Chunks u1 chunks = sha1Bytes u2 chunks.flatten ∧
      ∃ digest, sha1Bytes u2 chunks.flatten = some digest ∧ digest.length = 20 := by
  refine ⟨?_, sha1Spec chunks.flatten, sha1Bytes_eq_spec u2 _, serialize_length _⟩
  rw [sha1Chunks_eq_spec, sha1Bytes_eq_spec]

/-- C3: known answer for the empty input.  A fresh state with no `initialization` call
(or with one call on zero bytes), `final`, then `toHexString` over the 20 digest bytes
gives `da39a3ee5e6b4b0d3255bfef95601890afd80709`. -/
theorem C3_empty_input_vector (uninit : Buffer) :
    (sha1Chunks uninit []).bind (fun d => SHA1.toHexString d SHA1_DIGEST_SIZE) =
        some "da39a3ee5e6b4b0d3255bfef95601890afd80709" ∧
      (sha1Bytes uninit []).bind (fun d => SHA1.toHexString d SHA1_DIGEST_SIZE) =
        some "da39a3ee5e6b4b0d3255bfef95601890afd80709" := by
  have h1 : sha1Chunks uninit [] = sha1Chunks zeroBuffer [] := by
    rw [sha1Chunks_eq_spec, sha1Chunks_eq_spec]
  have h2 : sha1Bytes uninit [] = sha1Bytes zeroBuffer [] := by
    rw [sha1Bytes_eq_spec, sha1Bytes_eq_spec]
  rw [h1, h2]
  decide!

/-- C4 as stated fails: on the bytes of "abc" the hexadecimal digest is not the
39-character string `a9993e364706816aba3e25717850c26c9cd0d89`. -/
theorem C4_abc_vector_counterexample :
    (sha1Bytes zeroBuffer [0x61, 0x62, 0x63]).bind
        (fun d => SHA1.toHexString d SHA1_DIGEST_SIZE) ≠
      some "a9993e364706816aba3e25717850c26c9cd0d89" := by
  decide!

/-- C4 amended: hashing the three bytes `0x61 0x62 0x63` (fresh state, `initialization`
on the 3 bytes, `final`, `toHexString` over the 20 digest bytes) gives the 40-character
string `a9993e364706816aba3e25717850c26c9cd0d89d`. -/
theorem C4_abc_vector (uninit : Buffer) :
    (sha1Bytes uninit [0x61, 0x62, 0x63]).bind
        (fun d => SHA1.toHexString d SHA1_DIGEST_SIZE) =
      some "a9993e364706816aba3e25717850c26c9cd0d89d" := by
  have h : sha1Bytes uninit [0x61, 0x62, 0x63] = sha1Bytes zeroBuffer [0x61, 0x62, 0x63] := by
    rw [sha1Bytes_eq_spec, sha1Bytes_eq_spec]
  rw [h]
  decide!

/-- C6: for every state within the staging bound, `final` returns exactly 20 bytes;
byte `4 * i + j` of the digest is byte `j` (most significant first) of register `i` as it
stands after `padding`, and reading the digest back as five big-endian 32-bit words gives
the five registers in order. -/
theorem C6_final_serialises_registers (s : SHA1) (h : s.bufferLength < 64) :
    ∃ s2 digest, s.padding = some s2 ∧ s.final = some (s2, digest) ∧
      digest.length = SHA1_DIGEST_SIZE ∧
      (∀ i j, i < 5 → j < 4 →
        (digest.getD (4 * i + j) 0).val = s2.state.get i / 2 ^ (8 * (3 - j)) % 256) ∧
      (∀ i, i < 5 → beValue ((digest.drop (4 * i)).take 4) = s2.state.get i) := by
  obtain ⟨s2, p1, -, -, -, -, -, r, blk, hc⟩ := s.padding_spec h
  have hr := compress_lt r blk
  rw [← hc] at hr
  obtain ⟨r0, r1, r2, r3, r4⟩ := hr
  refine ⟨s2, digestBytes s2.state, p1, by simp only [SHA1.final, p1], ?_, ?_, ?_⟩
  · simp [digestBytes, be32]
  · intro i j hi hj
    rw [digestBytes_eq_serialize]
    interval_cases i <;> interval_cases j <;>
      simp [serialize, wordBytes, toByte, Registers.get]
  · intro i hi
    rw [digestBytes_eq_serialize]
    interval_cases i
    · exact wordBytes_value _ r0
    · exact wordBytes_value _ r1
    · exact wordBytes_value _ r2
    · exact wordBytes_value _ r3
    · exact wordBytes_value _ r4

/-- C6 at the freshly constructed state. -/
theorem C6_final_serialises_registers_witness :
    (SHA1.construct zeroBuffer).bufferLength < 64 ∧
    ∃ s2 digest, (SHA1.construct zeroBuffer).padding = some s2 ∧
      (SHA1.construct zeroBuffer).final = some (s2, digest) ∧
      digest.length = SHA1_DIGEST_SIZE ∧
      (∀ i j, i < 5 → j < 4 →
        (digest.getD (4 * i + j) 0).val = s2.state.get i / 2 ^ (8 * (3 - j)) % 256) ∧
      (∀ i, i < 5 → beValue ((digest.drop (4 * i)).take 4) = s2.state.get i) :=
  ⟨by decide, C6_final_serialises_registers (SHA1.construct zeroBuffer) (by decide)⟩

/-- C7: hex round trip.  For every byte sequence `B`, `toHexString(B, |B|)` returns a
string, and decoding it two characters at a time as base-16 numbers (first character the
high nibble) gives back exactly the bytes of `B`. -/
theorem C7_hex_round_trip (B : List Byte) :
    ∃ str, SHA1.toHexString B B.length = some str ∧
      decodeHex str.data = B.map (fun b => b.val) ∧
      (decodeHex str.data).map toByte = B := by
  refine ⟨_, SHA1.toHexString_eq B, ?_, ?_⟩
  · exact decodeHex_pairs B
  · rw [decodeHex_pairs B, List.map_map]
    have : (toByte ∘ fun (b : Byte) => b.val) = id := by
      funext b
      apply Fin.ext
      simp only [Function.comp, toByte, id]
      exact Nat.mod_eq_of_lt b.isLt
    rw [this, List.map_id]

/-- C8: for every byte sequence `B` of length `n`, `toHexString(B, n)` returns a string of
exactly `2 * n` characters, all of them among `0123456789abcdef`; characters `2 * i` and
`2 * i + 1` are the high and the low hexadecimal digit of `B[i]`, so a byte below `0x10`
is written with a leading `0`. -/
theorem C8_hex_string_format (B : List Byte) :
    ∃ str, SHA1.toHexString B B.length = some str ∧
      str.length = 2 * B.length ∧
      (∀ c ∈ str.data, c ∈ "0123456789abcdef".toList) ∧
      ∀ (i : Nat) (h : i < B.length),
        str.data.getD (2 * i) ' ' = hexDigit ((B.get ⟨i, h⟩).val / 16) ∧
        str.data.getD (2 * i + 1) ' ' = hexDigit ((B.get ⟨i, h⟩).val % 16) ∧
        ((B.get ⟨i, h⟩).val < 16 → str.data.getD (2 * i) ' ' = '0') := by
  refine ⟨_, SHA1.toHexString_eq B, ?_, ?_, ?_⟩
  · rw [String.length]
    exact hexPairs_length B
  · exact hexPairs_mem B
  · intro i h
    have := hexPairs_getD B i h
    refine ⟨this.1, this.2, ?_⟩
    intro hlt
    rw [this.1, Nat.div_eq_of_lt hlt]
    rfl

/-- C9: the constructor leaves the staging buffer as it finds it, and for any two
freshly constructed states that differ only in that buffer, absorbing the same chunks
and calling `final` gives the same digest, which is the value determined by the input
bytes alone. -/
theorem C9_digest_independent_of_uninitialised_buffer (u1 u2 : Buffer)
    (chunks : List (List Byte)) :
    (SHA1.construct u1).buffer = u1 ∧
    SHA1.construct u2 = { SHA1.construct u1 with buffer := u2 } ∧
    sha1Chunks u1 chunks = sha1Chunks u2 chunks ∧
    sha1Chunks u1 chunks = some (sha1Spec chunks.flatten) := by
  refine ⟨rfl, rfl, ?_, sha1Chunks_eq_spec u1 chunks⟩
  rw [sha1Chunks_eq_spec, sha1Chunks_eq_spec]

/-- C10: length accounting.  After `initialization` on the `n` bytes of `X` from a
freshly constructed state, `bufferLength = n mod 64`, `bitCount = 512 * (n div 64)` modulo
`2 ^ 64`, the first `bufferLength` bytes of the buffer are the last `n mod 64` bytes of
`X`, and `padding` then stores `8 * n mod 2 ^ 64`, big-endian, in bytes `[56, 64)` of the
final block. -/
theorem C10_length_accounting (uninit : Buffer) (X : List Byte) :
    ∃ s s2, (SHA1.construct uninit).initialization X = some s ∧
      s.bufferLength = X.length % 64 ∧
      s.bitCount = (512 * (X.length / 64)) % 2 ^ 64 ∧
      s.buffer.bytes.take s.bufferLength = X.drop (X.length - X.length % 64) ∧
      s.padding = some s2 ∧
      s2.bitCount = (8 * X.length) % 2 ^ 64 ∧
      s2.buffer.bytes.drop 56 = be64 ((8 * X.length) % 2 ^ 64) ∧
      beValue (s2.buffer.bytes.drop 56) = (8 * X.length) % 2 ^ 64 := by
  obtain ⟨s, h1, a1⟩ := (SHA1.construct uninit).initialization_spec X
    (by simp [SHA1.construct]) (SHA1.construct_inRange uninit)
  have e2 := a1.bitCount_eq
  have e4 := a1.bufferLength_eq
  have e5 := a1.pending_eq
  rw [SHA1.construct_pending, List.nil_append] at e2 e4 e5
  obtain ⟨s2, p1, -, p3, -, -, p6, -⟩ := s.padding_spec a1.bufferLength_lt
  have hb : (s.bitCount + 8 * s.bufferLength) % 2 ^ 64 = (8 * X.length) % 2 ^ 64 := by
    rw [e2, e4]; simp only [SHA1.construct]; omega
  rw [hb] at p3 p6
  refine ⟨s, s2, h1, e4, ?_, ?_, p1, p3, p6, ?_⟩
  · rw [e2]; simp only [SHA1.construct, Nat.zero_add]
  · have : X.length - X.length % 64 = 64 * (X.length / 64) := by omega
    rw [this, ← e5, SHA1.pending]
  · rw [p6]
    exact be64_value _ (Nat.mod_lt _ (by norm_num))

/-- C11: `bufferLength < 64` is an invariant of the hash state.  The constructor sets
`bufferLength = 0`; from a state with `bufferLength < 64` every `initialization` call, on
any input, returns a state with `bufferLength < 64`; and `padding` and `final` return a
state with `bufferLength` at most 56. -/
theorem C11_staging_bound_invariant (uninit : Buffer) (s : SHA1) (data : List Byte)
    (h : s.bufferLength < 64) :
    (SHA1.construct uninit).bufferLength = 0 ∧
    (∃ s2, s.initialization data = some s2 ∧ s2.bufferLength < 64) ∧
    (∃ s2 digest, s.padding = some s2 ∧ s.final = some (s2, digest) ∧
      s2.bufferLength ≤ 56) := by
  refine ⟨rfl, ?_, ?_⟩
  · obtain ⟨s2, t2, e, a, g⟩ :=
      SHA1.initLoop_total (data.length + 1) s data (Nat.le_succ _) h
    refine ⟨s2, e, ?_⟩
    rw [g.bufferLength_eq]
    exact a.bufferLength_lt
  · obtain ⟨s2, p1, -, -, -, p5, -⟩ := s.padding_spec h
    refine ⟨s2, digestBytes s2.state, p1, by simp only [SHA1.final, p1], ?_⟩
    rw [p5]
    split <;> omega

/-- C11 at the freshly constructed state and a three-byte input. -/
theorem C11_staging_bound_invariant_witness :
    (SHA1.construct zeroBuffer).bufferLength < 64 ∧
    (SHA1.construct zeroBuffer).bufferLength = 0 ∧
    (∃ s2, (SHA1.construct zeroBuffer).initialization [0x61, 0x62, 0x63] = some s2 ∧
      s2.bufferLength < 64) ∧
    (∃ s2 digest, (SHA1.construct zeroBuffer).padding = some s2 ∧
      (SHA1.construct zeroBuffer).final = some (s2, digest) ∧ s2.bufferLength ≤ 56) :=
  ⟨by decide, C11_staging_bound_invariant zeroBuffer (SHA1.construct zeroBuffer)
    [0x61, 0x62, 0x63] (by decide)⟩

/-- C12: absorbing an empty input is a no-op.  For every state, `initialization` with
length 0 returns the state itself (every field unchanged, no compression), whatever the
loop budget, and so the digest then produced by `final` is the one `final` produces
without that call. -/
theorem C12_empty_input_is_noop (s : SHA1) :
    s.initialization [] = some s ∧
    (∀ fuel, SHA1.initLoop fuel s [] = some s) ∧
    s.absorbFinal [] = (s.final).map Prod.snd := by
  have h : ∀ fuel, SHA1.initLoop fuel s [] = some s := by
    intro fuel
    cases fuel <;> rfl
  refine ⟨h _, h, ?_⟩
  simp only [SHA1.absorbFinal, SHA1.initialization, h]

/-- C13 as stated fails: on a freshly constructed object a second `final` call is not
rejected; it returns a second digest (that of no standard input) and leaves the object
with two blocks compressed and eight bits counted. -/
theorem C13_second_final_counterexample :
    (SHA1.construct zeroBuffer).finalTwice.bind (fun p => SHA1.toHexString p.2 20) =
        some "3e8b098c595c00136528df58b716220f519c31d3" ∧
      (SHA1.construct zeroBuffer).finalTwice.map
          (fun p => (p.1.block_number, p.1.bitCount, p.1.bufferLength)) = some (2, 8, 2) ∧
      (SHA1.construct zeroBuffer).final.map
          (fun p => (p.1.block_number, p.1.bitCount, p.1.bufferLength)) = some (1, 0, 1) := by
  decide!

/-- C13 amended: calling `final` a second time on the same state is not rejected.  From
every state with `bufferLength < 64` both calls return; the second call runs `padding`
again on the state the first call left (whose `bufferLength` is at most 56), counts its
pending bytes once more, compresses one or two more blocks and returns a further
20-byte digest. -/
theorem C13_second_final_runs_padding_again (s : SHA1) (h : s.bufferLength < 64) :
    ∃ s1 d1 s2 d2, s.final = some (s1, d1) ∧ s1.final = some (s2, d2) ∧
      s.finalTwice = some (s2, d2) ∧
      s1.padding = some s2 ∧
      d2 = digestBytes s2.state ∧ d2.length = 20 ∧
      s2.bitCount = (s1.bitCount + 8 * s1.bufferLength) % 2 ^ 64 ∧
      s2.block_number =
        (s1.block_number + (if 56 ≤ s1.bufferLength then 2 else 1)) % 2 ^ 64 := by
  obtain ⟨s1, p1, -, -, -, p5, -⟩ := s.padding_spec h
  have h1 : s1.bufferLength < 64 := by
    rw [p5]; split <;> omega
  obtain ⟨s2, q1, -, q3, q4, -⟩ := s1.padding_spec h1
  have f1 : s.final = some (s1, digestBytes s1.state) := by simp only [SHA1.final, p1]
  have f2 : s1.final = some (s2, digestBytes s2.state) := by simp only [SHA1.final, q1]
  refine ⟨s1, _, s2, _, f1, f2, by simp only [SHA1.finalTwice, f1, f2], q1, rfl, ?_, q3, q4⟩
  rw [digestBytes_eq_serialize]
  exact serialize_length _

/-- C13 amended, at the freshly constructed state. -/
theorem C13_second_final_runs_padding_again_witness :
    (SHA1.construct zeroBuffer).bufferLength < 64 ∧
    ∃ s1 d1 s2 d2, (SHA1.construct zeroBuffer).final = some (s1, d1) ∧
      s1.final = some (s2, d2) ∧
      (SHA1.construct zeroBuffer).finalTwice = some (s2, d2) ∧
      s1.padding = some s2 ∧
      d2 = digestBytes s2.state ∧ d2.length = 20 ∧
      s2.bitCount = (s1.bitCount + 8 * s1.bufferLength) % 2 ^ 64 ∧
      s2.block_number =
        (s1.block_number + (if 56 ≤ s1.bufferLength then 2 else 1)) % 2 ^ 64 :=
  ⟨by decide, C13_second_final_runs_padding_again (SHA1.construct zeroBuffer) (by decide)⟩

/-- C14 as stated fails: when the block counter holds `2 ^ 64 - 1`, `transform` leaves
it at 0; it has not increased by 1. -/
theorem C14_transform_counter_counterexample :
    counterAtMax.block_number = 2 ^ 64 - 1 ∧
      (counterAtMax.transform zeroBuffer).block_number = 0 ∧
      (counterAtMax.transform zeroBuffer).block_number ≠ counterAtMax.block_number + 1 := by
  decide!

/-- C14 amended: for every state and every 64-byte block, `transform` changes only the
five registers and the diagnostic block counter, which increases by exactly 1 modulo
`2 ^ 64` (by exactly 1 unless it holds `2 ^ 64 - 1`); `bitCount`, `bufferLength` and the
staging buffer are unchanged, and the new registers depend only on the old registers and
the 64 block bytes. -/
theorem C14_transform_frame (s : SHA1) (block : Buffer) :
    (s.transform block).bitCount = s.bitCount ∧
    (s.transform block).bufferLength = s.bufferLength ∧
    (s.transform block).buffer = s.buffer ∧
    (s.transform block).block_number = (s.block_number + 1) % 2 ^ 64 ∧
    (s.block_number + 1 < 2 ^ 64 → (s.transform block).block_number = s.block_number + 1) ∧
    block.bytes.length = 64 ∧
    (s.transform block).state = compress s.state block.bytes ∧
    (∀ (t : SHA1) (block2 : Buffer), t.state = s.state → block2.bytes = block.bytes →
      (t.transform block2).state = (s.transform block).state) := by
  refine ⟨?_, ?_, ?_, ?_, ?_, block.size_eq, ?_, ?_⟩
  · simp only [SHA1.transform]
  · simp only [SHA1.transform]
  · simp only [SHA1.transform]
  · simp only [SHA1.transform]
  · intro h
    simp only [SHA1.transform]
    exact Nat.mod_eq_of_lt h
  · simp only [SHA1.transform]
  · intro t block2 h1 h2
    simp only [SHA1.transform, h1, h2]

/-- C15 as stated fails: with the block counter at `2 ^ 64 - 1`, an `initialization`
call on 64 bytes returns a state whose counter is 0; the counter has decreased. -/
theorem C15_counter_decreases_counterexample :
    counterAtMax.block_number = 2 ^ 64 - 1 ∧
      (counterAtMax.initialization (List.replicate 64 0)).map (fun s => s.block_number) =
        some 0 := by
  decide!

/-- C15 amended: the diagnostic block counter has no effect on the digest: for any two
states that agree on registers, `bitCount`, `bufferLength` and staging buffer, whatever
their block counters, absorbing the same input and calling `final` gives the same result,
a 20-byte digest when `bufferLength < 64`.  The counter advances by one modulo `2 ^ 64`
per compression, so under `transform`, `initialization` and `final` it does not decrease
as long as it does not pass `2 ^ 64 - 1`. -/
theorem C15_block_counter_has_no_effect (s t : SHA1) (data : List Byte)
    (h1 : s.state = t.state) (h2 : s.bitCount = t.bitCount)
    (h3 : s.bufferLength = t.bufferLength) (h4 : s.buffer = t.buffer) :
    s.absorbFinal data = t.absorbFinal data ∧
    (s.bufferLength < 64 → ∃ digest, s.absorbFinal data = some digest ∧
      t.absorbFinal data = some digest ∧ digest.length = 20) ∧
    (∀ blk, (s.transform blk).block_number = (s.block_number + 1) % 2 ^ 64 ∧
      (s.block_number + 1 < 2 ^ 64 → s.block_number ≤ (s.transform blk).block_number)) ∧
    (s.bufferLength < 64 → ∃ s2, s.initialization data = some s2 ∧
      s2.block_number % 2 ^ 64 =
        (s.block_number + (s.bufferLength + data.length) / 64) % 2 ^ 64 ∧
      (s.block_number + (s.bufferLength + data.length) / 64 < 2 ^ 64 →
        s2.block_number = s.block_number + (s.bufferLength + data.length) / 64 ∧
        s.block_number ≤ s2.block_number)) ∧
    (s.bufferLength < 64 → ∃ s2 digest, s.final = some (s2, digest) ∧
      s2.block_number =
        (s.block_number + (if 56 ≤ s.bufferLength then 2 else 1)) % 2 ^ 64 ∧
      (s.block_number + 2 < 2 ^ 64 → s.block_number ≤ s2.block_number)) := by
  have hag := Agree.of_fields s t h1 h2 h3 h4
  have heq := hag.absorbFinal data
  refine ⟨heq, ?_, ?_, ?_, ?_⟩
  · intro hL
    obtain ⟨s2, e, -, -, e4, -⟩ := s.initialization_total data hL
    have hL2 : s2.bufferLength < 64 := by rw [e4]; omega
    obtain ⟨s3, p1, -⟩ := s2.padding_spec hL2
    have hs : s.absorbFinal data = some (digestBytes s3.state) := by
      simp only [SHA1.absorbFinal, e, SHA1.final, p1, Option.map_some']
    refine ⟨_, hs, by rw [← heq, hs], ?_⟩
    rw [digestBytes_eq_serialize]
    exact serialize_length _
  · intro blk
    constructor
    · simp only [SHA1.transform]
    · intro hw
      simp only [SHA1.transform]
      omega
  · intro hL
    obtain ⟨s2, e, -, -, -, -, -, e7⟩ := s.initialization_total data hL
    refine ⟨s2, e, e7, ?_⟩
    intro hw
    have hlt := SHA1.initLoop_block_number_lt _ s s2 data e (by omega)
    have : s2.block_number = s.block_number + (s.bufferLength + data.length) / 64 := by
      omega
    exact ⟨this, by omega⟩
  · intro hL
    obtain ⟨s2, p1, -, -, p4, -⟩ := s.padding_spec hL
    refine ⟨s2, digestBytes s2.state, by simp only [SHA1.final, p1], p4, ?_⟩
    intro hw
    rw [p4]
    split <;> omega

/-- C15 amended, at two fresh states whose block counters are 0 and `2 ^ 64 - 1`. -/
theorem C15_block_counter_has_no_effect_witness :
    (SHA1.construct zeroBuffer).state = counterAtMax.state ∧
    (SHA1.construct zeroBuffer).bitCount = counterAtMax.bitCount ∧
    (SHA1.construct zeroBuffer).bufferLength = counterAtMax.bufferLength ∧
    (SHA1.construct zeroBuffer).buffer = counterAtMax.buffer ∧
    (SHA1.construct zeroBuffer).block_number ≠ counterAtMax.block_number ∧
    (SHA1.construct zeroBuffer).absorbFinal [0x61, 0x62, 0x63] =
      counterAtMax.absorbFinal [0x61, 0x62, 0x63] :=
  ⟨rfl, rfl, rfl, rfl, by decide!,
    (C15_block_counter_has_no_effect (SHA1.construct zeroBuffer) counterAtMax
      [0x61, 0x62, 0x63] rfl rfl rfl rfl).1⟩

/-- C16: number of compression passes at finalisation.  From a state with
`bufferLength = L < 64`, `padding` folds the compression function over exactly two blocks
when `56 ≤ L` and over exactly one block when `L ≤ 55`, and advances the block counter
by as much; hashing an `n`-byte message from a fresh state compresses
`(n + 8) div 64 + 1` blocks in total, the blocks of the padded message, and that number
is the final value of `block_number`. -/
theorem C16_compressions_at_finalisation (s : SHA1) (uninit : Buffer) (X : List Byte)
    (hL : s.bufferLength < 64) (hX : X.length < 2 ^ 64) :
    (∃ s2, s.padding = some s2 ∧
      s2.state = (blocks64 (s.pending ++ padTail s.bufferLength
        ((s.bitCount + 8 * s.bufferLength) % 2 ^ 64))).foldl compress s.state ∧
      (blocks64 (s.pending ++ padTail s.bufferLength
        ((s.bitCount + 8 * s.bufferLength) % 2 ^ 64))).length =
          (if 56 ≤ s.bufferLength then 2 else 1) ∧
      s2.block_number =
        (s.block_number + (if 56 ≤ s.bufferLength then 2 else 1)) % 2 ^ 64) ∧
    (∃ s1 s2 digest, (SHA1.construct uninit).initialization X = some s1 ∧
      s1.final = some (s2, digest) ∧
      s2.state = (blocks64 (padMessage X)).foldl compress initialRegisters ∧
      (blocks64 (padMessage X)).length = (X.length + 8) / 64 + 1 ∧
      s2.block_number = (X.length + 8) / 64 + 1) := by
  constructor
  · obtain ⟨s2, p1, p2, -, p4, -⟩ := s.padding_spec hL
    refine ⟨s2, p1, p2, ?_, p4⟩
    rw [blocks64_length, List.length_append, s.pending_length (by omega), padTail_length]
    unfold padZeros
    split <;> omega
  · obtain ⟨s1, e1, a1⟩ := (SHA1.construct uninit).initialization_spec X
      (by simp [SHA1.construct]) (SHA1.construct_inRange uninit)
    have b1 := a1.state_eq
    have b2 := a1.bitCount_eq
    have b3 := a1.block_number_eq
    have b4 := a1.bufferLength_eq
    have b5 := a1.pending_eq
    rw [SHA1.construct_pending, List.nil_append] at b1 b2 b3 b4 b5
    obtain ⟨s2, p1, p2, -, p4, -⟩ := s1.padding_spec a1.bufferLength_lt
    have hb : (s1.bitCount + 8 * s1.bufferLength) % 2 ^ 64 = (8 * X.length) % 2 ^ 64 := by
      rw [b2, b4]; simp only [SHA1.construct]; omega
    have hz : padZeros (X.length % 64) = padZeros X.length := by
      simp only [padZeros, Nat.mod_mod]
    refine ⟨s1, s2, digestBytes s2.state, e1, by simp only [SHA1.final, p1], ?_, ?_, ?_⟩
    · rw [p2, hb, b1, ← List.foldl_append, b5, b4, ← blocks64_append_tail]
      simp only [padMessage, padTail, hz, SHA1.construct, initialRegisters, List.append_assoc]
    · rw [blocks64_length, padMessage_length]
      unfold padZeros
      omega
    · rw [p4, b3, b4]
      simp only [SHA1.construct]
      split <;> omega

/-- C16 at the freshly constructed state and a three-byte message. -/
theorem C16_compressions_at_finalisation_witness :
    (SHA1.construct zeroBuffer).bufferLength < 64 ∧
    ([0x61, 0x62, 0x63] : List Byte).length < 2 ^ 64 ∧
    (∃ s2, (SHA1.construct zeroBuffer).padding = some s2 ∧
      s2.state = (blocks64 ((SHA1.construct zeroBuffer).pending ++
        padTail (SHA1.construct zeroBuffer).bufferLength
          (((SHA1.construct zeroBuffer).bitCount +
            8 * (SHA1.construct zeroBuffer).bufferLength) % 2 ^ 64))).foldl compress
              (SHA1.construct zeroBuffer).state ∧
      (blocks64 ((SHA1.construct zeroBuffer).pending ++
        padTail (SHA1.construct zeroBuffer).bufferLength
          (((SHA1.construct zeroBuffer).bitCount +
            8 * (SHA1.construct zeroBuffer).bufferLength) % 2 ^ 64))).length =
          (if 56 ≤ (SHA1.construct zeroBuffer).bufferLength then 2 else 1) ∧
      s2.block_number =
        ((SHA1.construct zeroBuffer).block_number +
          (if 56 ≤ (SHA1.construct zeroBuffer).bufferLength then 2 else 1)) % 2 ^ 64) ∧
    (∃ s1 s2 digest,
      (SHA1.construct zeroBuffer).initialization [0x61, 0x62, 0x63] = some s1 ∧
      s1.final = some (s2, digest) ∧
      s2.state = (blocks64 (padMessage [0x61, 0x62, 0x63])).foldl compress initialRegisters ∧
      (blocks64 (padMessage [0x61, 0x62, 0x63])).length =
        (([0x61, 0x62, 0x63] : List Byte).length + 8) / 64 + 1 ∧
      s2.block_number = (([0x61, 0x62, 0x63] : List Byte).length + 8) / 64 + 1) :=
  ⟨by decide, by decide,
    C16_compressions_at_finalisation (SHA1.construct zeroBuffer) zeroBuffer
      [0x61, 0x62, 0x63] (by decide) (by decide)⟩

/-- C19: termination of absorb.  From every state with `bufferLength < 64` and for every
input of `n` bytes, the loop of `initialization` returns, with the same result for every
budget of at least `n` passes, having consumed all `n` bytes: the registers have been
folded over the `(bufferLength + n) div 64` full blocks of the pending bytes followed by
the input, and the remaining bytes are pending.  Each pass on a non-empty input copies
at least 1 and at most `64 - bufferLength` bytes, leaves strictly less input and keeps
the bound. -/
theorem C19_absorb_terminates (s : SHA1) (data : List Byte) (hL : s.bufferLength < 64) :
    (∃ s2, s.initialization data = some s2 ∧
      (∀ fuel, data.length ≤ fuel → SHA1.initLoop fuel s data = some s2) ∧
      s2.state = (blocks64 (s.pending ++ data)).foldl compress s.state ∧
      (blocks64 (s.pending ++ data)).length = (s.bufferLength + data.length) / 64 ∧
      s2.bufferLength = (s.bufferLength + data.length) % 64 ∧
      s2.pending = (s.pending ++ data).drop (64 * ((s.bufferLength + data.length) / 64)) ∧
      s2.block_number % 2 ^ 64 =
        (s.block_number + (s.bufferLength + data.length) / 64) % 2 ^ 64) ∧
    (∀ (r : SHA1) (rest : List Byte), r.bufferLength < 64 → rest ≠ [] →
      ∃ r2, r.initStep rest =
          some (r2, rest.drop (min rest.length (64 - r.bufferLength))) ∧
        1 ≤ min rest.length (64 - r.bufferLength) ∧
        min rest.length (64 - r.bufferLength) ≤ 64 - r.bufferLength ∧
        (rest.drop (min rest.length (64 - r.bufferLength))).length < rest.length ∧
        r2.bufferLength < 64) := by
  constructor
  · obtain ⟨s2, e, p1, p2, p3, p4, -, p6⟩ := s.initialization_total data hL
    refine ⟨s2, e, ?_, p1, p2, p3, p4, p6⟩
    intro fuel hf
    obtain ⟨r, -, er, -, -⟩ := SHA1.initLoop_total data.length s data (Nat.le_refl _) hL
    have h1 := SHA1.initLoop_fuel_mono _ s r data 1 er
    have h2 := SHA1.initLoop_fuel_mono _ s r data (fuel - data.length) er
    have e3 : data.length + (fuel - data.length) = fuel := by omega
    rw [e3] at h2
    have : s2 = r := by
      have e' : SHA1.initLoop (data.length + 1) s data = some s2 := e
      rw [h1] at e'
      exact (Option.some.inj e').symm
    rw [this]
    exact h2
  · intro r rest hr hrest
    obtain ⟨r2, e, h2⟩ := r.initStep_pass rest hr hrest
    have hpos : 0 < rest.length := List.length_pos.mpr hrest
    refine ⟨r2, e, by omega, by omega, ?_, h2⟩
    rw [List.length_drop]
    omega

/-- C19 at the freshly constructed state and a three-byte input. -/
theorem C19_absorb_terminates_witness :
    (SHA1.construct zeroBuffer).bufferLength < 64 ∧
    ∃ s2, (SHA1.construct zeroBuffer).initialization [0x61, 0x62, 0x63] = some s2 ∧
      (∀ fuel, ([0x61, 0x62, 0x63] : List Byte).length ≤ fuel →
        SHA1.initLoop fuel (SHA1.construct zeroBuffer) [0x61, 0x62, 0x63] = some s2) ∧
      s2.state = (blocks64 ((SHA1.construct zeroBuffer).pending ++
        [0x61, 0x62, 0x63])).foldl compress (SHA1.construct zeroBuffer).state ∧
      (blocks64 ((SHA1.construct zeroBuffer).pending ++ [0x61, 0x62, 0x63])).length =
        ((SHA1.construct zeroBuffer).bufferLength +
          ([0x61, 0x62, 0x63] : List Byte).length) / 64 ∧
      s2.bufferLength = ((SHA1.construct zeroBuffer).bufferLength +
          ([0x61, 0x62, 0x63] : List Byte).length) % 64 ∧
      s2.pending = ((SHA1.construct zeroBuffer).pending ++ [0x61, 0x62, 0x63]).drop
        (64 * (((SHA1.construct zeroBuffer).bufferLength +
          ([0x61, 0x62, 0x63] : List Byte).length) / 64)) ∧
      s2.block_number % 2 ^ 64 =
        ((SHA1.construct zeroBuffer).block_number +
          ((SHA1.construct zeroBuffer).bufferLength +
            ([0x61, 0x62, 0x63] : List Byte).length) / 64) % 2 ^ 64 :=
  ⟨by decide,
    (C19_absorb_terminates (SHA1.construct zeroBuffer) [0x61, 0x62, 0x63] (by decide)).1⟩

/-- C17: message schedule of `transform`.  For every 64-byte block the schedule `w` has
80 words; `w[i] = block[4i] * 2^24 + block[4i+1] * 2^16 + block[4i+2] * 2^8 + block[4i+3]`
for `i` in `[0, 16)`; `w[i] = leftRotate (w[i-3] xor w[i-8] xor w[i-14] xor w[i-16]) 1` for
`i` in `[16, 80)`; and on these 32-bit words `leftRotate` by 1 is a rotation: the word is
doubled modulo `2 ^ 32` and its top bit re-enters at bit 0. -/
theorem C17_message_schedule (block : Buffer) :
    block.bytes.length = 64 ∧
    (schedule block.bytes).length = 80 ∧
    (∀ i, i < 16 →
      (schedule block.bytes).getD i 0 =
        (block.bytes.getD (4 * i) 0).val * 2 ^ 24 +
          (block.bytes.getD (4 * i + 1) 0).val * 2 ^ 16 +
          (block.bytes.getD (4 * i + 2) 0).val * 2 ^ 8 +
          (block.bytes.getD (4 * i + 3) 0).val) ∧
    (∀ i, 16 ≤ i → i < 80 →
      (schedule block.bytes).getD i 0 =
        leftRotate
          ((schedule block.bytes).getD (i - 3) 0 ^^^ (schedule block.bytes).getD (i - 8) 0 ^^^
            (schedule block.bytes).getD (i - 14) 0 ^^^
            (schedule block.bytes).getD (i - 16) 0) 1 ∧
      (schedule block.bytes).getD i 0 =
        (2 * ((schedule block.bytes).getD (i - 3) 0 ^^^
            (schedule block.bytes).getD (i - 8) 0 ^^^
            (schedule block.bytes).getD (i - 14) 0 ^^^
            (schedule block.bytes).getD (i - 16) 0)) % 2 ^ 32 +
          ((schedule block.bytes).getD (i - 3) 0 ^^^
            (schedule block.bytes).getD (i - 8) 0 ^^^
            (schedule block.bytes).getD (i - 14) 0 ^^^
            (schedule block.bytes).getD (i - 16) 0) / 2 ^ 31) ∧
    (∀ x, x < 2 ^ 32 →
      leftRotate x 1 = (2 * x) % 2 ^ 32 + x / 2 ^ 31 ∧ x / 2 ^ 31 < 2 ∧
      leftRotate x 1 % 2 = x / 2 ^ 31) := by
  obtain ⟨hlen, hfirst, hlt, hrec⟩ := schedule_spec block.bytes
  have hrot : ∀ x, x < 2 ^ 32 → leftRotate x 1 = (2 * x) % 2 ^ 32 + x / 2 ^ 31 := by
    intro x hx
    rw [leftRotate_eq_rotl32 x 1 hx (by norm_num)]
    unfold rotl32
    rw [Nat.mul_comm x]
    simp only [Nat.pow_one, Nat.reduceSub]
  refine ⟨block.size_eq, hlen, ?_, ?_, ?_⟩
  · intro i hi
    rw [hfirst i hi, parseWord_eq]
  · intro i h1 h2
    refine ⟨hrec i h1 h2, ?_⟩
    rw [hrec i h1 h2]
    apply hrot
    exact Nat.xor_lt_two_pow (Nat.xor_lt_two_pow (Nat.xor_lt_two_pow
      (hlt _ (by omega)) (hlt _ (by omega))) (hlt _ (by omega))) (hlt _ (by omega))
  · intro x hx
    have h := hrot x hx
    refine ⟨h, by omega, ?_⟩
    rw [h]
    omega

/-- C18: bounds safety under the staging invariant.  A buffer operation returns only
when its index range lies in `[0, 64)`.  From every state with `bufferLength < 64`:
`initialization` returns on every input, each of its passes copying
`min length (64 - bufferLength)` bytes with `64 - bufferLength` computed without
wrapping; the three parts of `padding` return, the zero-fill length `64 - bufferLength`
being taken only above 56 and neither it nor `56 - bufferLength` wrapping; and
`transform`, with every read of the block checked against 64, every access of the
schedule against 80 and every rotation count against the open interval `(0, 32)`,
returns what the unchecked `transform` returns. -/
theorem C18_bounds_safety (s : SHA1) (data : List Byte) (block : Buffer)
    (hL : s.bufferLength < 64) :
    ((∀ (b : Buffer) off src count,
        (b.copy off src count).isSome ↔ off + count ≤ 64 ∧ count ≤ src.length) ∧
      (∀ (b : Buffer) off value count, (b.fill off value count).isSome ↔ off + count ≤ 64) ∧
      (∀ (b : Buffer) i value, (b.store i value).isSome ↔ i < 64)) ∧
    (∃ s2, s.initialization data = some s2 ∧ s2.bufferLength < 64) ∧
    (∀ (r : SHA1) (rest : List Byte), r.bufferLength < 64 → rest ≠ [] →
      r.bufferLength ≤ 64 ∧
      subSizeT SHA1_BLOCK_SIZE r.bufferLength = 64 - r.bufferLength ∧
      r.bufferLength + min rest.length (64 - r.bufferLength) ≤ 64 ∧
      ∃ r2, r.initStep rest =
          some (r2, rest.drop (min rest.length (64 - r.bufferLength))) ∧
        r2.bufferLength < 64) ∧
    (∃ s1 s2 s3, s.padStart = some s1 ∧ s1.padFlush = some s2 ∧ s2.padFinish = some s3 ∧
      s.padding = some s3 ∧
      s1.bufferLength = s.bufferLength + 1 ∧
      (56 < s1.bufferLength →
        s1.bufferLength ≤ 64 ∧
        subSizeT SHA1_BLOCK_SIZE s1.bufferLength = 64 - s1.bufferLength) ∧
      s2.bufferLength ≤ 56 ∧
      subSizeT 56 s2.bufferLength = 56 - s2.bufferLength ∧
      s3.bufferLength ≤ 56) ∧
    (∀ r : SHA1, r.transformChecked block = some (r.transform block)) ∧
    (rotationCountOk 1 ∧ rotationCountOk 5 ∧ rotationCountOk 30) := by
  refine ⟨⟨Buffer.copy_isSome, Buffer.fill_isSome, Buffer.store_isSome⟩, ?_, ?_,
    s.padding_steps hL, fun r => r.transformChecked_eq block, ?_⟩
  · obtain ⟨s2, e, -, -, e4, -⟩ := s.initialization_total data hL
    exact ⟨s2, e, by rw [e4]; omega⟩
  · intro r rest hr hrest
    refine ⟨by omega, subSizeT_of_le 64 _ (by omega) (by norm_num), by omega,
      r.initStep_pass rest hr hrest⟩
  · unfold rotationCountOk
    omega

/-- C18 at the freshly constructed state, a three-byte input and the all-zero block. -/
theorem C18_bounds_safety_witness :
    (SHA1.construct zeroBuffer).bufferLength < 64 ∧
    (∃ s2, (SHA1.construct zeroBuffer).initialization [0x61, 0x62, 0x63] = some s2 ∧
      s2.bufferLength < 64) ∧
    (∃ s1 s2 s3, (SHA1.construct zeroBuffer).padStart = some s1 ∧
      s1.padFlush = some s2 ∧ s2.padFinish = some s3 ∧
      (SHA1.construct zeroBuffer).padding = some s3 ∧
      s1.bufferLength = (SHA1.construct zeroBuffer).bufferLength + 1 ∧
      (56 < s1.bufferLength →
        s1.bufferLength ≤ 64 ∧
        subSizeT SHA1_BLOCK_SIZE s1.bufferLength = 64 - s1.bufferLength) ∧
      s2.bufferLength ≤ 56 ∧
      subSizeT 56 s2.bufferLength = 56 - s2.bufferLength ∧
      s3.bufferLength ≤ 56) ∧
    (∀ r : SHA1, r.transformChecked zeroBuffer = some (r.transform zeroBuffer)) :=
  ⟨by decide,
    (C18_bounds_safety (SHA1.construct zeroBuffer) [0x61, 0x62, 0x63] zeroBuffer
      (by decide)).2.1,
    (C18_bounds_safety (SHA1.construct zeroBuffer) [0x61, 0x62, 0x63] zeroBuffer
      (by decide)).2.2.2.1,
    (C18_bounds_safety (SHA1.construct zeroBuffer) [0x61, 0x62, 0x63] zeroBuffer
      (by decide)).2.2.2.2.1⟩

end cripto

